import Mathlib

/-!
Verification of the task-assignment routing layer: the pickup-delivery
variant (or-toolsOptimisation-pickAndDelievery.py) and the scheduling
variant (OR-SchedulingOptimisation.py).  The external vehicle-routing
solver is modelled abstractly: a raw solution is a function assigning to
every routing index the value of its NextVar, and the solver contract
(routes form disjoint simple paths from each vehicle start to its end,
dropped nodes self-loop, the registered constraints hold) is expressed by
a predicate on that function.  Model construction and solution decoding
are translated directly from the scripts.
-/

/-- Model of RoutingIndexManager.IndexToNode for the configuration used by
both scripts (starts = ends = the agent nodes 0..m-1): internal index i < n is
node i itself, and vehicle a's end index n + a maps back to its start node a. -/
def IndexToNode (n i : ℕ) : ℕ := if i < n then i else i - n

/-- Model of RoutingModel.IsEnd: the end copies sit at indices n, n+1, .... -/
def isEnd (n i : ℕ) : Bool := n ≤ i

/-- Truncation toward zero: the Python int() conversion applied to a float. -/
noncomputable def intTrunc (x : ℝ) : ℤ := if 0 ≤ x then ⌊x⌋ else ⌈x⌉

/-- Indices visited by a decoding while-loop: starting from index i, collect
indices until an end index (or the fuel bound) is reached. -/
def walkIdx (nextf : ℕ → ℕ) (n : ℕ) : ℕ → ℕ → List ℕ
  | 0, _ => []
  | fuel + 1, i => if n ≤ i then [] else i :: walkIdx nextf n fuel (nextf i)

/-- Arguments of the AddDimensionWithVehicleCapacity call. -/
structure CapacityDimension where
  slack_max : ℕ
  vehicle_capacities : List ℕ
  fix_start_cumul_to_zero : Bool

namespace PD

/-- Planar coordinates, the location pairs of the pickup-delivery script. -/
abbrev Coord := ℝ × ℝ

/-- Helper euclidean_distance of the pickup-delivery script; math.sqrt is
modelled by Real.sqrt. -/
noncomputable def euclidean_distance (loc1 loc2 : Coord) : ℝ :=
  Real.sqrt ((loc1.1 - loc2.1) ^ 2 + (loc1.2 - loc2.2) ^ 2)

/-- Task records of the pickup-delivery script: the "single" shape carries one
location, the "pickup_delivery" shape carries a pickup and a drop location. -/
inductive Task where
  | single (id : ℕ) (skill : String) (location : Coord) (duration : ℕ)
  | pickup_delivery (id : ℕ) (skill : String) (pickup_location drop_location : Coord)
      (duration : ℕ)

def Task.id : Task → ℕ
  | .single i _ _ _ => i
  | .pickup_delivery i _ _ _ _ => i

def Task.skill : Task → String
  | .single _ s _ _ => s
  | .pickup_delivery _ s _ _ _ => s

def Task.duration : Task → ℕ
  | .single _ _ _ d => d
  | .pickup_delivery _ _ _ _ d => d

/-- Discriminator for the "pickup_delivery" task type tag. -/
def Task.isPD : Task → Bool
  | .single _ _ _ _ => false
  | .pickup_delivery _ _ _ _ _ => true

instance : Inhabited Task := ⟨.single 0 "" default 0⟩

/-- Agent records of the pickup-delivery script. -/
structure Agent where
  id : ℕ
  skills : List String
  location : Coord
  availability : ℕ

instance : Inhabited Agent := ⟨⟨0, [], default, 0⟩⟩

/-- Derived node data of the script: the combined location list, the
task_indices mapping node index to owning task, and the pickup/drop pairs. -/
structure Registry where
  locations : List Coord
  task_indices : List (ℕ × Task)
  pickup_delivery_indices : List (ℕ × ℕ)

/-- One iteration of the location-building loop: a pickup-delivery task appends
its pickup and drop locations and records the pair, a single task appends its
location; task_indices records each appended node with its task. -/
def registerTask (r : Registry) (t : Task) : Registry :=
  match t with
  | Task.pickup_delivery _ _ pl dl _ =>
      { locations := r.locations ++ [pl, dl]
        task_indices := r.task_indices ++ [(r.locations.length, t), (r.locations.length + 1, t)]
        pickup_delivery_indices :=
          r.pickup_delivery_indices ++ [(r.locations.length, r.locations.length + 1)] }
  | Task.single _ _ l _ =>
      { locations := r.locations ++ [l]
        task_indices := r.task_indices ++ [(r.locations.length, t)]
        pickup_delivery_indices := r.pickup_delivery_indices }

/-- Node construction of the script: agent start locations first, then the task
nodes in input order. -/
def buildRegistry (agents : List Agent) (tasks : List Task) : Registry :=
  tasks.foldl registerTask ⟨agents.map Agent.location, [], []⟩

/-- Pairwise distance matrix of the script (euclidean metric). -/
noncomputable def distance_matrix (locations : List Coord) : List (List ℝ) :=
  locations.map (fun loc1 => locations.map (fun loc2 => euclidean_distance loc1 loc2))

/-- Entry access into the distance matrix (out-of-range reads default to 0). -/
noncomputable def dmE (locations : List Coord) (i j : ℕ) : ℝ :=
  ((distance_matrix locations).getD i []).getD j 0

/-- Arc-cost callback of the script: the matrix entry converted with int(). -/
noncomputable def distance_callback (locations : List Coord) (n from_index to_index : ℕ) : ℤ :=
  intTrunc (dmE locations (IndexToNode n from_index) (IndexToNode n to_index))

/-- Demand callback of the script: scan task_indices for the node and return
the first matching task's duration, else 0. -/
def demand_callback (R : Registry) (from_index : ℕ) : ℕ :=
  match R.task_indices.find? (fun x => IndexToNode R.locations.length from_index == x.1) with
  | some x => x.2.duration
  | none => 0

/-- Availability dimension registered by the script: zero slack, per-agent
capacities, cumulative variable fixed to zero at each start. -/
def availabilityDimension (agents : List Agent) : CapacityDimension :=
  ⟨0, agents.map Agent.availability, true⟩

/-- Pairs (task node, agent index) removed from the node's VehicleVar by the
skill-matching loop of the script. -/
def removedPairs (R : Registry) (agents : List Agent) : List (ℕ × ℕ) :=
  R.task_indices.foldl
    (fun acc x =>
      acc ++ ((List.range agents.length).filter
        (fun a => !((agents.getD a default).skills.contains x.2.skill))).map (fun a => (x.1, a)))
    []

/-- Fixed penalty of the script for leaving a task node unvisited. -/
def penalty : ℕ := 1000

/-- Disjunctions added by the script: one singleton disjunction per entry of
task_indices, each with the fixed penalty. -/
def disjunctions (R : Registry) : List (List ℕ × ℕ) :=
  R.task_indices.map (fun x => ([x.1], penalty))

/-- Objective contribution of the disjunctions for a raw solution: a
disjunction pays its penalty when every node in it is left on a self-loop. -/
def unassignedPenalty (R : Registry) (nextf : ℕ → ℕ) : ℕ :=
  ((disjunctions R).map (fun d => if d.1.all (fun x => nextf x == x) then d.2 else 0)).sum

def numLocations (agents : List Agent) (tasks : List Task) : ℕ :=
  (buildRegistry agents tasks).locations.length

/-- Index sequence the decoder traverses for agent a. -/
def walkOf (agents : List Agent) (tasks : List Task) (nextf : ℕ → ℕ) (a : ℕ) : List ℕ :=
  walkIdx nextf (numLocations agents tasks) (numLocations agents tasks + 1) a

/-- Index at which agent a's while-loop stops. -/
def stopOf (agents : List Agent) (tasks : List Task) (nextf : ℕ → ℕ) (a : ℕ) : ℕ :=
  nextf^[(walkOf agents tasks nextf a).length] a

/-- Route entries printed by the decoder: a plain task line or the combined
pickup-and-delivery line. -/
inductive RouteEntry where
  | task (id : ℕ)
  | taskPD (id : ℕ)
deriving DecidableEq

def RouteEntry.eid : RouteEntry → ℕ
  | .task i => i
  | .taskPD i => i

/-- Decoder body for one node: the visited-nodes check followed by the scan of
task_indices, grouping a pickup-delivery task into one entry at its pickup node
and adding the matched task's duration. -/
def processNode (R : Registry) (node : ℕ) (v : List ℕ) (r : List RouteEntry) (d : ℕ) :
    List ℕ × List RouteEntry × ℕ :=
  if node ∈ v then (v, r, d)
  else
    R.task_indices.foldl
      (fun s x =>
        if node = x.1 then
          match x.2 with
          | Task.pickup_delivery tid _ _ _ _ =>
              (match R.pickup_delivery_indices.find? (fun pd => node == pd.1) with
               | some pd => (pd.2 :: pd.1 :: s.1, s.2.1 ++ [RouteEntry.taskPD tid],
                   s.2.2 + x.2.duration)
               | none => (s.1, s.2.1, s.2.2 + x.2.duration))
          | Task.single tid _ _ _ =>
              (node :: s.1, s.2.1 ++ [RouteEntry.task tid], s.2.2 + x.2.duration)
        else s)
      (v, r, d)

/-- State of the per-agent decoding loop. -/
structure LoopState where
  visited : List ℕ
  route : List RouteEntry
  total_distance : ℝ
  total_duration : ℕ
  last_location : Option ℕ

/-- Per-agent decoding while-loop of the script: process the node, step to the
next index, and accumulate the arc distance and last location. -/
noncomputable def loopPD (R : Registry) (nextf : ℕ → ℕ) (n : ℕ) :
    ℕ → ℕ → LoopState → LoopState
  | 0, _, s => s
  | fuel + 1, i, s =>
    if n ≤ i then s
    else
      let node := IndexToNode n i
      let p := processNode R node s.visited s.route s.total_duration
      let j := nextf i
      loopPD R nextf n fuel j
        ⟨p.1, p.2.1, s.total_distance + dmE R.locations node (IndexToNode n j), p.2.2, some node⟩

/-- Decoding of all agents in order, threading the shared visited-node set. -/
noncomputable def decodePD (agents : List Agent) (tasks : List Task) (nextf : ℕ → ℕ) :
    List LoopState × List ℕ :=
  (List.range agents.length).foldl
    (fun acc a =>
      let s := loopPD (buildRegistry agents tasks) nextf (numLocations agents tasks)
        (numLocations agents tasks + 1) a ⟨acc.2, [], 0, 0, none⟩
      (acc.1 ++ [s], s.visited))
    ([], [])

/-- Decoded result of agent a. -/
noncomputable def pdResult (agents : List Agent) (tasks : List Task) (nextf : ℕ → ℕ)
    (a : ℕ) : LoopState :=
  (decodePD agents tasks nextf).1.getD a ⟨[], [], 0, 0, none⟩

/-- Unassigned-task report of the script: every entry of task_indices whose
node is left on a self-loop contributes its task id. -/
def unassignedTasks (R : Registry) (nextf : ℕ → ℕ) : List ℕ :=
  R.task_indices.foldl (fun acc x => if nextf x.1 = x.1 then acc ++ [x.2.id] else acc) []

/-- Solver contract for a raw solution of the model built by the script: the
per-agent walks are duplicate-free and pairwise disjoint, each walk stops at
its own vehicle's end index, a task node self-loops exactly when no walk
visits it, a pickup and its drop are served by the same vehicle with the
pickup first, visited task nodes respect the skill constraint, and the
cumulative demand of each walk stays within the vehicle capacity. -/
def ValidSolution (agents : List Agent) (tasks : List Task) (nextf : ℕ → ℕ) : Prop :=
  (∀ a, a < agents.length → (walkOf agents tasks nextf a).Nodup) ∧
  (∀ a, a < agents.length → ∀ b, b < agents.length →
    a = b ∨ ∀ x ∈ walkOf agents tasks nextf a, x ∉ walkOf agents tasks nextf b) ∧
  (∀ a, a < agents.length → stopOf agents tasks nextf a = numLocations agents tasks + a) ∧
  (∀ x ∈ (buildRegistry agents tasks).task_indices,
    (nextf x.1 = x.1 ↔ ∀ a, a < agents.length → x.1 ∉ walkOf agents tasks nextf a)) ∧
  (∀ x ∈ (buildRegistry agents tasks).pickup_delivery_indices, ∀ a, a < agents.length →
    ((x.1 ∈ walkOf agents tasks nextf a ↔ x.2 ∈ walkOf agents tasks nextf a) ∧
     (x.2 ∈ walkOf agents tasks nextf a →
       List.Sublist [x.1, x.2] (walkOf agents tasks nextf a)))) ∧
  (∀ x ∈ (buildRegistry agents tasks).task_indices, ∀ a, a < agents.length →
    x.1 ∈ walkOf agents tasks nextf a → x.2.skill ∈ (agents.getD a default).skills) ∧
  (∀ a, a < agents.length →
    ((walkOf agents tasks nextf a).map (demand_callback (buildRegistry agents tasks))).sum ≤
      (agents.getD a default).availability)

instance (agents : List Agent) (tasks : List Task) (nextf : ℕ → ℕ) :
    Decidable (ValidSolution agents tasks nextf) := by
  unfold ValidSolution
  exact @instDecidableAnd _ _ inferInstance
    (@instDecidableAnd _ _ inferInstance
      (@instDecidableAnd _ _ inferInstance
        (@instDecidableAnd _ _ inferInstance
          (@instDecidableAnd _ _ inferInstance
            (@instDecidableAnd _ _ inferInstance inferInstance)))))

/-- Structural invariants of the node registry the script builds: task nodes
sit between the agent nodes and the end of the location list, node indices are
unique, a pickup node is immediately followed by its drop node, pickup and
drop nodes are distinct from each other and from single-task nodes, and the
two nodes of a pickup-delivery task share the task record. -/
structure RegWF (m : ℕ) (R : Registry) : Prop where
  locs_ge : m ≤ R.locations.length
  ti_ge : ∀ x ∈ R.task_indices, m ≤ x.1
  ti_lt : ∀ x ∈ R.task_indices, x.1 < R.locations.length
  ti_nodup : (R.task_indices.map Prod.fst).Nodup
  pd_ge : ∀ x ∈ R.pickup_delivery_indices, m ≤ x.1
  pd_succ : ∀ x ∈ R.pickup_delivery_indices, x.2 = x.1 + 1
  pd_lt : ∀ x ∈ R.pickup_delivery_indices, x.2 < R.locations.length
  pd_fst_nodup : (R.pickup_delivery_indices.map Prod.fst).Nodup
  pd_fst_ne_snd : ∀ x ∈ R.pickup_delivery_indices, ∀ y ∈ R.pickup_delivery_indices,
    x.1 ≠ y.2
  pd_entries : ∀ x ∈ R.pickup_delivery_indices,
    ∃ t, (x.1, t) ∈ R.task_indices ∧ (x.2, t) ∈ R.task_indices ∧ t.isPD = true
  ti_pd : ∀ x ∈ R.task_indices, x.2.isPD = true →
    ∃ y ∈ R.pickup_delivery_indices, (x.1 = y.1 ∨ x.1 = y.2) ∧
      (y.1, x.2) ∈ R.task_indices ∧ (y.2, x.2) ∈ R.task_indices
  ti_single : ∀ x ∈ R.task_indices, x.2.isPD = false →
    ∀ y ∈ R.pickup_delivery_indices, x.1 ≠ y.1 ∧ x.1 ≠ y.2

/-- Entries of task_indices owned by the task with the given id. -/
def entriesOf (R : Registry) (tid : ℕ) : List (ℕ × Task) :=
  R.task_indices.filter (fun x => x.2.id == tid)

/-- Specification of what the decoder emits at a node: a single-task node
yields a plain entry, a pickup node yields the combined pickup-delivery entry,
and a drop node (or a non-task node) yields nothing. -/
def emitEntry (R : Registry) (node : ℕ) : Option RouteEntry :=
  match R.task_indices.find? (fun x => node == x.1) with
  | none => none
  | some x =>
    match x.2 with
    | Task.single i _ _ _ => some (RouteEntry.task i)
    | Task.pickup_delivery i _ _ _ _ =>
      match R.pickup_delivery_indices.find? (fun pd => node == pd.1) with
      | some _ => some (RouteEntry.taskPD i)
      | none => none

/-- Specification of the duration the decoder adds at a node: the owning
task's duration at a single or pickup node, 0 elsewhere. -/
def emitDuration (R : Registry) (node : ℕ) : ℕ :=
  match R.task_indices.find? (fun x => node == x.1) with
  | none => 0
  | some x =>
    match x.2 with
    | Task.single _ _ _ _ => x.2.duration
    | Task.pickup_delivery _ _ _ _ _ =>
      match R.pickup_delivery_indices.find? (fun pd => node == pd.1) with
      | some _ => x.2.duration
      | none => 0

/-- Route/duration/visited part of the decoding loop, folded over a node
sequence. -/
def processRDV (R : Registry) (ws : List ℕ) (s : List ℕ × List RouteEntry × ℕ) :
    List ℕ × List RouteEntry × ℕ :=
  ws.foldl (fun s node => processNode R node s.1 s.2.1 s.2.2) s

/-- Sum of the matrix entries of the arcs leaving each index of a walk. -/
noncomputable def arcSumE (locs : List Coord) (nextf : ℕ → ℕ) (n : ℕ) (ws : List ℕ) : ℝ :=
  (ws.map (fun x => dmE locs (IndexToNode n x) (IndexToNode n (nextf x)))).sum

/-- Sum of the matrix entries over consecutive pairs of a walk. -/
noncomputable def zipArcsE (locs : List Coord) (ws : List ℕ) : ℝ :=
  ((ws.zip ws.tail).map (fun p => dmE locs p.1 p.2)).sum

/-- Solver-side cost of the arcs leaving each index of a walk: the int()
truncated matrix entries the arc-cost callback returns. -/
noncomputable def routeCost (locs : List Coord) (nextf : ℕ → ℕ) (n : ℕ) (ws : List ℕ) : ℤ :=
  (ws.map (fun x => distance_callback locs n x (nextf x))).sum

/-- Concrete scenario: one pickup-delivery task whose skill no agent offers. -/
def exTasksA : List Task := [Task.pickup_delivery 1 "B" (2, 2) (3, 1) 50]

def exAgentsA : List Agent := [⟨0, ["A"], (1, 1), 120⟩]

/-- Raw solution for the scenario: the agent drives straight to its end and
both task nodes self-loop. -/
def exNextA : ℕ → ℕ := fun i => if i = 0 then 3 else i

/-- Concrete scenario: one pickup-delivery task served by the only agent. -/
def exTasksB : List Task := [Task.pickup_delivery 1 "B" (2, 2) (3, 1) 50]

def exAgentsB : List Agent := [⟨0, ["A", "B"], (0, 0), 120⟩]

/-- Raw solution for the scenario: start, pickup, drop, end. -/
def exNextB : ℕ → ℕ := fun i => i + 1

/-- Concrete scenario for the cost-truncation claim: one task at planar
distance 3/2 from the agent. -/
noncomputable def exTasksD : List Task := [Task.single 7 "A" (0, 3 / 2) 50]

def exAgentsD : List Agent := [⟨0, ["A"], (0, 0), 120⟩]

def exNextD : ℕ → ℕ := fun i => i + 1

end PD

namespace Sched

/-- Model of math.atan2: the branch structure of the two-argument arctangent
of the C library, on real arguments. -/
noncomputable def atan2 (y x : ℝ) : ℝ :=
  if 0 < x then Real.arctan (y / x)
  else if x < 0 then
    (if 0 ≤ y then Real.arctan (y / x) + Real.pi else Real.arctan (y / x) - Real.pi)
  else
    (if 0 < y then Real.pi / 2 else if y < 0 then -(Real.pi / 2) else 0)

/-- Degrees-to-radians conversion math.radians. -/
noncomputable def radians (x : ℝ) : ℝ := x * Real.pi / 180

/-- Helper haversine_distance of the scheduling script (Earth radius 6371 km);
math.sqrt is modelled by Real.sqrt. -/
noncomputable def haversine_distance (loc1 loc2 : ℝ × ℝ) : ℝ :=
  let dlat := radians (loc2.1 - loc1.1)
  let dlon := radians (loc2.2 - loc1.2)
  let a := Real.sin (dlat / 2) ^ 2 +
    Real.cos (radians loc1.1) * Real.cos (radians loc2.1) * Real.sin (dlon / 2) ^ 2
  let c := 2 * atan2 (Real.sqrt a) (Real.sqrt (1 - a))
  6371.0 * c

/-- build_distance_matrix of the scheduling script. -/
noncomputable def build_distance_matrix (locations : List (ℝ × ℝ)) : List (List ℝ) :=
  locations.map (fun loc1 => locations.map (fun loc2 => haversine_distance loc1 loc2))

/-- Entry access into the haversine matrix (out-of-range reads default to 0). -/
noncomputable def dmH (locations : List (ℝ × ℝ)) (i j : ℕ) : ℝ :=
  ((build_distance_matrix locations).getD i []).getD j 0

/-- Task records of the scheduling script. -/
structure Task where
  id : ℕ
  skill : String
  location : ℝ × ℝ
  pincode : ℕ
  duration : ℕ

instance : Inhabited Task := ⟨⟨0, "", default, 0, 0⟩⟩

/-- Agent records of the scheduling script. -/
structure Agent where
  id : ℕ
  skills : List String
  location : ℝ × ℝ
  availability : ℕ
  allowed_locations : List ℕ

instance : Inhabited Agent := ⟨⟨0, [], default, 0, []⟩⟩

/-- Raw input dictionary for a task: the set of keys present, plus the payload
the fields carry once present. -/
structure RawTask where
  keys : List String
  payload : Task

/-- Raw input dictionary for an agent. -/
structure RawAgent where
  keys : List String
  payload : Agent

def required_task_keys : List String := ["id", "skill", "location", "pincode", "duration"]

def required_agent_keys : List String :=
  ["id", "skills", "location", "availability", "allowed_locations"]

/-- validate_input of the scheduling script: reject empty collections, then
the first task and then the first agent whose key set misses a required
field. -/
def validate_input (tasks : List RawTask) (agents : List RawAgent) : Except String Unit :=
  if tasks.isEmpty || agents.isEmpty then Except.error "Tasks and agents cannot be empty."
  else
    match tasks.find? (fun t => !(required_task_keys.all (fun k => t.keys.contains k))) with
    | some _ => Except.error "Task is missing required fields"
    | none =>
      match agents.find? (fun ag => !(required_agent_keys.all (fun k => ag.keys.contains k))) with
      | some _ => Except.error "Agent is missing required fields"
      | none => Except.ok ()

/-- Combined location list of the scheduling script: agent start locations
first, then the task locations in input order. -/
def locationsOf (tasks : List Task) (agents : List Agent) : List (ℝ × ℝ) :=
  agents.map Agent.location ++ tasks.map Task.location

def numLoc (tasks : List Task) (agents : List Agent) : ℕ := agents.length + tasks.length

/-- Demand callback of the scheduling script: a task node contributes its
duration, an agent node contributes 0. -/
def demand_callback (tasks : List Task) (m n from_index : ℕ) : ℕ :=
  if m ≤ IndexToNode n from_index then (tasks.getD (IndexToNode n from_index - m) default).duration
  else 0

/-- Pairs (task node, agent index) removed from the node's VehicleVar by the
skill-and-pincode loop of the scheduling script. -/
def removedPairs (tasks : List Task) (agents : List Agent) : List (ℕ × ℕ) :=
  (List.range tasks.length).foldl
    (fun acc ti =>
      acc ++ ((List.range agents.length).filter (fun a =>
        !((agents.getD a default).skills.contains (tasks.getD ti default).skill &&
          (agents.getD a default).allowed_locations.contains
            (tasks.getD ti default).pincode))).map (fun a => (agents.length + ti, a)))
    []

/-- Fixed penalty of the scheduling script for leaving a task unvisited. -/
def penalty : ℕ := 5000

/-- Disjunctions added by the scheduling script: one singleton disjunction per
task node. -/
def disjunctions (m n : ℕ) : List (List ℕ × ℕ) :=
  (List.range' m (n - m)).map (fun t => ([t], penalty))

/-- Arc-cost callback of the scheduling script. -/
noncomputable def distance_callback (locations : List (ℝ × ℝ)) (n from_index to_index : ℕ) : ℤ :=
  intTrunc (dmH locations (IndexToNode n from_index) (IndexToNode n to_index))

/-- Data handed to the external solver by solve_task_assignment. -/
structure Model where
  locations : List (ℝ × ℝ)
  matrix : List (List ℝ)
  capacity : CapacityDimension
  removed : List (ℕ × ℕ)
  disj : List (List ℕ × ℕ)

/-- Model construction of solve_task_assignment after validation. -/
noncomputable def buildModel (tasks : List Task) (agents : List Agent) : Model :=
  { locations := locationsOf tasks agents
    matrix := build_distance_matrix (locationsOf tasks agents)
    capacity := ⟨0, agents.map Agent.availability, true⟩
    removed := removedPairs tasks agents
    disj := disjunctions agents.length (numLoc tasks agents) }

/-- Entry point solve_task_assignment up to the solver call: validation runs
first, and a validation failure prevents any model or matrix from being
built. -/
noncomputable def solve_task_assignment (tasks : List RawTask) (agents : List RawAgent) :
    Except String Model :=
  match validate_input tasks agents with
  | Except.error e => Except.error e
  | Except.ok _ =>
      Except.ok (buildModel (tasks.map RawTask.payload) (agents.map RawAgent.payload))

/-- State of the per-agent decoding loop of the scheduling script. -/
structure SLoopState where
  route : List ℕ
  total_distance : ℝ
  total_duration : ℕ

/-- Per-agent decoding while-loop of the scheduling script: task nodes append
their id and duration, and the arc distance is added only when the next index
is not the vehicle's end. -/
noncomputable def loopS (tasks : List Task) (locs : List (ℝ × ℝ)) (m n : ℕ)
    (nextf : ℕ → ℕ) : ℕ → ℕ → SLoopState → SLoopState
  | 0, _, s => s
  | fuel + 1, i, s =>
    if n ≤ i then s
    else
      let node := IndexToNode n i
      let s1 : SLoopState :=
        if m ≤ node then
          ⟨s.route ++ [(tasks.getD (node - m) default).id], s.total_distance,
            s.total_duration + (tasks.getD (node - m) default).duration⟩
        else s
      let j := nextf i
      let s2 : SLoopState :=
        if n ≤ j then s1
        else ⟨s1.route, s1.total_distance + dmH locs node (IndexToNode n j), s1.total_duration⟩
      loopS tasks locs m n nextf fuel j s2

/-- Decoded result of agent a in the scheduling script. -/
noncomputable def schedResult (tasks : List Task) (agents : List Agent) (nextf : ℕ → ℕ)
    (a : ℕ) : SLoopState :=
  loopS tasks (locationsOf tasks agents) agents.length (numLoc tasks agents) nextf
    (numLoc tasks agents + 1) a ⟨[], 0, 0⟩

/-- Unassigned-task report of the scheduling script: task nodes left on a
self-loop, reported by task id. -/
def unassignedTasks (tasks : List Task) (m n : ℕ) (nextf : ℕ → ℕ) : List ℕ :=
  ((List.range' m (n - m)).filter (fun li => nextf li == li)).map
    (fun li => (tasks.getD (li - m) default).id)

/-- Index sequence the decoder traverses for agent a. -/
def walkOfS (tasks : List Task) (agents : List Agent) (nextf : ℕ → ℕ) (a : ℕ) : List ℕ :=
  walkIdx nextf (numLoc tasks agents) (numLoc tasks agents + 1) a

/-- Index at which agent a's while-loop stops. -/
def stopOfS (tasks : List Task) (agents : List Agent) (nextf : ℕ → ℕ) (a : ℕ) : ℕ :=
  nextf^[(walkOfS tasks agents nextf a).length] a

/-- Solver contract for a raw solution of the scheduling model: duplicate-free
pairwise-disjoint walks ending at the own vehicle end, self-loop exactly on
unvisited task nodes, skill and pincode eligibility on visited task nodes, and
the capacity bound on each walk's cumulative demand. -/
def ValidSolutionS (tasks : List Task) (agents : List Agent) (nextf : ℕ → ℕ) : Prop :=
  (∀ a, a < agents.length → (walkOfS tasks agents nextf a).Nodup) ∧
  (∀ a, a < agents.length → ∀ b, b < agents.length →
    a = b ∨ ∀ x ∈ walkOfS tasks agents nextf a, x ∉ walkOfS tasks agents nextf b) ∧
  (∀ a, a < agents.length → stopOfS tasks agents nextf a = numLoc tasks agents + a) ∧
  (∀ li ∈ List.range' agents.length tasks.length,
    (nextf li = li ↔ ∀ a, a < agents.length → li ∉ walkOfS tasks agents nextf a)) ∧
  (∀ ti ∈ List.range tasks.length, ∀ a, a < agents.length →
    agents.length + ti ∈ walkOfS tasks agents nextf a →
      (tasks.getD ti default).skill ∈ (agents.getD a default).skills ∧
      (tasks.getD ti default).pincode ∈ (agents.getD a default).allowed_locations) ∧
  (∀ a, a < agents.length →
    ((walkOfS tasks agents nextf a).map
      (demand_callback tasks agents.length (numLoc tasks agents))).sum ≤
      (agents.getD a default).availability)

instance (tasks : List Task) (agents : List Agent) (nextf : ℕ → ℕ) :
    Decidable (ValidSolutionS tasks agents nextf) := by
  unfold ValidSolutionS
  exact @instDecidableAnd _ _ inferInstance
    (@instDecidableAnd _ _ inferInstance
      (@instDecidableAnd _ _ inferInstance
        (@instDecidableAnd _ _ inferInstance
          (@instDecidableAnd _ _ inferInstance inferInstance))))

/-- Auxiliary a-term of the haversine formula. -/
noncomputable def hav_a (loc1 loc2 : ℝ × ℝ) : ℝ :=
  Real.sin (radians (loc2.1 - loc1.1) / 2) ^ 2 +
    Real.cos (radians loc1.1) * Real.cos (radians loc2.1) *
      Real.sin (radians (loc2.2 - loc1.2) / 2) ^ 2

/-- Sum of the haversine matrix entries over consecutive pairs of a walk. -/
noncomputable def zipArcsH (locs : List (ℝ × ℝ)) (ws : List ℕ) : ℝ :=
  ((ws.zip ws.tail).map (fun p => dmH locs p.1 p.2)).sum

/-- Concrete scheduling scenario: one matching task on the far side of the
planet, so the return arc has a provably non-zero length. -/
def exTasksC : List Task := [⟨5, "driver", (0, 180), 11, 20⟩]

def exAgentsC : List Agent := [⟨0, ["driver"], (0, 0), 120, [11]⟩]

/-- Raw solution: start, task, end. -/
def exNextC : ℕ → ℕ := fun i => i + 1

end Sched

section MetricLemmas

open PD Sched

theorem dmE_eq (locs : List PD.Coord) (i j : ℕ) (hi : i < locs.length)
    (hj : j < locs.length) : dmE locs i j = euclidean_distance locs[i] locs[j] := by
  unfold dmE distance_matrix
  have h1 : (List.map (fun loc1 => List.map (fun loc2 => euclidean_distance loc1 loc2) locs)
      locs).getD i [] = List.map (fun loc2 => euclidean_distance locs[i] loc2) locs := by
    rw [List.getD_eq_getElem _ _ (by simpa using hi), List.getElem_map]
  rw [h1, List.getD_eq_getElem _ _ (by simpa using hj), List.getElem_map]

theorem dmH_eq (locs : List (ℝ × ℝ)) (i j : ℕ) (hi : i < locs.length)
    (hj : j < locs.length) : dmH locs i j = haversine_distance locs[i] locs[j] := by
  unfold dmH build_distance_matrix
  have h1 : (List.map (fun loc1 => List.map (fun loc2 => haversine_distance loc1 loc2) locs)
      locs).getD i [] = List.map (fun loc2 => haversine_distance locs[i] loc2) locs := by
    rw [List.getD_eq_getElem _ _ (by simpa using hi), List.getElem_map]
  rw [h1, List.getD_eq_getElem _ _ (by simpa using hj), List.getElem_map]

theorem euclidean_symm (a b : PD.Coord) : euclidean_distance a b = euclidean_distance b a := by
  unfold euclidean_distance
  have h : (a.1 - b.1) ^ 2 + (a.2 - b.2) ^ 2 = (b.1 - a.1) ^ 2 + (b.2 - a.2) ^ 2 := by ring
  rw [h]

theorem euclidean_self (a : PD.Coord) : euclidean_distance a a = 0 := by
  simp [euclidean_distance]

theorem euclidean_nonneg (a b : PD.Coord) : 0 ≤ euclidean_distance a b :=
  Real.sqrt_nonneg _

theorem radians_zero : radians 0 = 0 := by
  simp [radians]

theorem radians_neg (x : ℝ) : radians (-x) = -radians x := by
  unfold radians
  ring

theorem atan2_nonneg (y x : ℝ) (hy : 0 ≤ y) (hx : 0 ≤ x) : 0 ≤ atan2 y x := by
  have harctan : ∀ t : ℝ, 0 ≤ t → 0 ≤ Real.arctan t := by
    intro t ht
    rw [← Real.arctan_zero]
    exact Real.arctan_strictMono.monotone ht
  unfold atan2
  split
  · exact harctan _ (div_nonneg hy (le_of_lt (by assumption)))
  · split
    · exact absurd hx (not_le.mpr (by assumption))
    · split
      · positivity
      · split
        · exact absurd hy (not_le.mpr (by assumption))
        · exact le_refl 0

theorem atan2_zero_one : atan2 0 1 = 0 := by
  unfold atan2
  rw [if_pos one_pos]
  simp [Real.arctan_zero]

theorem haversine_eq_hav_a (loc1 loc2 : ℝ × ℝ) :
    haversine_distance loc1 loc2 =
      6371.0 * (2 * atan2 (Real.sqrt (hav_a loc1 loc2)) (Real.sqrt (1 - hav_a loc1 loc2))) := by
  rfl

theorem hav_a_symm (a b : ℝ × ℝ) : hav_a a b = hav_a b a := by
  unfold hav_a
  have h1 : a.1 - b.1 = -(b.1 - a.1) := by ring
  have h2 : a.2 - b.2 = -(b.2 - a.2) := by ring
  have hs : ∀ u : ℝ, Real.sin (-u / 2) ^ 2 = Real.sin (u / 2) ^ 2 := by
    intro u
    rw [neg_div, Real.sin_neg]
    ring
  rw [h1, h2, radians_neg, radians_neg, hs, hs]
  ring

theorem haversine_symm (a b : ℝ × ℝ) :
    haversine_distance a b = haversine_distance b a := by
  rw [haversine_eq_hav_a, haversine_eq_hav_a, hav_a_symm]

theorem hav_a_self (a : ℝ × ℝ) : hav_a a a = 0 := by
  unfold hav_a
  simp [radians_zero]

theorem haversine_self (a : ℝ × ℝ) : haversine_distance a a = 0 := by
  rw [haversine_eq_hav_a, hav_a_self]
  simp [atan2_zero_one]

theorem haversine_nonneg (a b : ℝ × ℝ) : 0 ≤ haversine_distance a b := by
  rw [haversine_eq_hav_a]
  have h := atan2_nonneg (Real.sqrt (hav_a a b)) (Real.sqrt (1 - hav_a a b))
    (Real.sqrt_nonneg _) (Real.sqrt_nonneg _)
  positivity

end MetricLemmas

section FoldHelpers

theorem foldl_append_eq_join {α β : Type _} (f : α → List β) :
    ∀ (l : List α) (init : List β),
      l.foldl (fun acc x => acc ++ f x) init = init ++ (l.map f).flatten := by
  intro l
  induction l with
  | nil => intro init; simp
  | cons h t ih => intro init; simp [ih]

theorem foldl_guard_append {α β : Type _} (P : α → Prop) [DecidablePred P] (f : α → β) :
    ∀ (l : List α) (init : List β),
      l.foldl (fun acc x => if P x then acc ++ [f x] else acc) init =
        init ++ (l.filter (fun x => decide (P x))).map f := by
  intro l
  induction l with
  | nil => intro init; simp
  | cons h t ih =>
    intro init
    by_cases hp : P h
    · simp [hp, ih]
    · simp [hp, ih]

end FoldHelpers

section WalkLemmas

theorem walkIdx_end {nextf : ℕ → ℕ} {n fuel i : ℕ} (h : n ≤ i) :
    walkIdx nextf n fuel i = [] := by
  cases fuel with
  | zero => rfl
  | succ f => simp [walkIdx, h]

theorem walkIdx_step {nextf : ℕ → ℕ} {n fuel i : ℕ} (h : ¬ n ≤ i) :
    walkIdx nextf n (fuel + 1) i = i :: walkIdx nextf n fuel (nextf i) := by
  simp [walkIdx, h]

theorem mem_walkIdx_lt {nextf : ℕ → ℕ} {n : ℕ} :
    ∀ {fuel i x : ℕ}, x ∈ walkIdx nextf n fuel i → x < n := by
  intro fuel
  induction fuel with
  | zero => intro i x hx; simp [walkIdx] at hx
  | succ f ih =>
    intro i x hx
    by_cases h : n ≤ i
    · rw [walkIdx_end h] at hx
      simp at hx
    · rw [walkIdx_step h] at hx
      rcases List.mem_cons.mp hx with h1 | h1
      · omega
      · exact ih h1

theorem walkIdx_length_le {nextf : ℕ → ℕ} {n : ℕ} :
    ∀ (fuel i : ℕ), (walkIdx nextf n fuel i).length ≤ fuel := by
  intro fuel
  induction fuel with
  | zero => intro i; simp [walkIdx]
  | succ f ih =>
    intro i
    by_cases h : n ≤ i
    · rw [walkIdx_end h]
      simp
    · rw [walkIdx_step h]
      simpa using Nat.succ_le_succ (ih (nextf i))

theorem walkIdx_stop {nextf : ℕ → ℕ} {n : ℕ} :
    ∀ {fuel i : ℕ}, (walkIdx nextf n fuel i).length < fuel →
      n ≤ nextf^[(walkIdx nextf n fuel i).length] i := by
  intro fuel
  induction fuel with
  | zero => intro i h; omega
  | succ f ih =>
    intro i h
    by_cases hi : n ≤ i
    · rw [walkIdx_end hi]
      simpa using hi
    · rw [walkIdx_step hi] at h ⊢
      simp only [List.length_cons] at h ⊢
      rw [Function.iterate_succ_apply]
      exact ih (by omega)

theorem nodup_lt_length_le (l : List ℕ) (n : ℕ) (hn : l.Nodup) (hx : ∀ x ∈ l, x < n) :
    l.length ≤ n := by
  have hsub : l.toFinset ⊆ Finset.range n := by
    intro x hx'
    rw [List.mem_toFinset] at hx'
    rw [Finset.mem_range]
    exact hx x hx'
  calc l.length = l.toFinset.card := (List.toFinset_card_of_nodup hn).symm
    _ ≤ (Finset.range n).card := Finset.card_le_card hsub
    _ = n := Finset.card_range n

theorem walkIdx_head {nextf : ℕ → ℕ} {n fuel i : ℕ} (h : ¬ n ≤ i) (hf : 0 < fuel) :
    ∃ rest, walkIdx nextf n fuel i = i :: rest := by
  cases fuel with
  | zero => omega
  | succ f => exact ⟨_, walkIdx_step h⟩

end WalkLemmas

namespace PD

theorem regWF_registerTask {m : ℕ} {R : Registry} (h : RegWF m R) (t : Task) :
    RegWF m (registerTask R t) := by
  obtain ⟨locs_ge, ti_ge, ti_lt, ti_nodup, pd_ge, pd_succ, pd_lt, pd_fst_nodup,
    pd_fst_ne_snd, pd_entries, ti_pd, ti_single⟩ := h
  cases t with
  | single tid s loc dur =>
    refine ⟨?_, ?_, ?_, ?_, ?_, ?_, ?_, ?_, ?_, ?_, ?_, ?_⟩ <;>
      simp only [registerTask, List.length_append, List.length_cons, List.length_nil,
        List.mem_append, List.mem_cons, List.not_mem_nil, or_false]
    · omega
    · rintro x (hx | rfl)
      · exact ti_ge x hx
      · exact locs_ge
    · rintro x (hx | rfl)
      · exact lt_trans (ti_lt x hx) (by omega)
      · omega
    · rw [List.map_append, List.nodup_append]
      refine ⟨ti_nodup, by simp, ?_⟩
      intro y hy hy2
      simp at hy2
      rcases List.mem_map.mp hy with ⟨x, hx, rfl⟩
      exact absurd (ti_lt x hx) (by omega)
    · exact pd_ge
    · exact pd_succ
    · intro x hx
      exact lt_trans (pd_lt x hx) (by omega)
    · exact pd_fst_nodup
    · exact pd_fst_ne_snd
    · intro x hx
      rcases pd_entries x hx with ⟨tt, h1, h2, h3⟩
      exact ⟨tt, Or.inl h1, Or.inl h2, h3⟩
    · rintro x (hx | rfl)
      · intro hpd
        rcases ti_pd x hx hpd with ⟨y, hy, h1, h2, h3⟩
        exact ⟨y, hy, h1, Or.inl h2, Or.inl h3⟩
      · intro hpd
        simp [Task.isPD] at hpd
    · rintro x (hx | rfl)
      · intro hsingle y hy
        exact ti_single x hx hsingle y hy
      · intro _ y hy
        have h1 := pd_lt y hy
        have h2 := pd_succ y hy
        omega
  | pickup_delivery tid s pl dl dur =>
    refine ⟨?_, ?_, ?_, ?_, ?_, ?_, ?_, ?_, ?_, ?_, ?_, ?_⟩ <;>
      simp only [registerTask, List.length_append, List.length_cons, List.length_nil,
        List.mem_append, List.mem_cons, List.not_mem_nil, or_false]
    · omega
    · rintro x (hx | rfl | rfl)
      · exact ti_ge x hx
      · exact locs_ge
      · omega
    · rintro x (hx | rfl | rfl)
      · exact lt_trans (ti_lt x hx) (by omega)
      · omega
      · omega
    · rw [List.map_append, List.nodup_append]
      refine ⟨ti_nodup, by simp, ?_⟩
      intro y hy hy2
      rcases List.mem_map.mp hy with ⟨x, hx, rfl⟩
      simp at hy2
      have := ti_lt x hx
      rcases hy2 with h1 | h1 <;> omega
    · rintro x (hx | rfl)
      · exact pd_ge x hx
      · exact locs_ge
    · rintro x (hx | rfl)
      · exact pd_succ x hx
      · rfl
    · rintro x (hx | rfl)
      · exact lt_trans (pd_lt x hx) (by omega)
      · omega
    · rw [List.map_append, List.nodup_append]
      refine ⟨pd_fst_nodup, by simp, ?_⟩
      intro y hy hy2
      rcases List.mem_map.mp hy with ⟨x, hx, rfl⟩
      simp at hy2
      have h1 := pd_lt x hx
      have h2 := pd_succ x hx
      omega
    · rintro x (hx | rfl) y (hy | rfl)
      · exact pd_fst_ne_snd x hx y hy
      · have h1 := pd_lt x hx
        have h2 := pd_succ x hx
        simp
        omega
      · have h1 := pd_lt y hy
        simp
        omega
      · simp
    · rintro x (hx | rfl)
      · rcases pd_entries x hx with ⟨tt, h1, h2, h3⟩
        exact ⟨tt, Or.inl h1, Or.inl h2, h3⟩
      · exact ⟨Task.pickup_delivery tid s pl dl dur, Or.inr (Or.inl rfl),
          Or.inr (Or.inr rfl), rfl⟩
    · rintro x (hx | rfl | rfl)
      · intro hpd
        rcases ti_pd x hx hpd with ⟨y, hy, h1, h2, h3⟩
        exact ⟨y, Or.inl hy, h1, Or.inl h2, Or.inl h3⟩
      · intro _
        refine ⟨(R.locations.length, R.locations.length + 1), Or.inr rfl, Or.inl rfl,
          Or.inr (Or.inl rfl), Or.inr (Or.inr rfl)⟩
      · intro _
        refine ⟨(R.locations.length, R.locations.length + 1), Or.inr rfl, Or.inr rfl,
          Or.inr (Or.inl rfl), Or.inr (Or.inr rfl)⟩
    · rintro x (hx | rfl | rfl)
      · rintro hsingle y (hy | rfl)
        · exact ti_single x hx hsingle y hy
        · have := ti_lt x hx
          simp
          omega
      · intro hsingle
        simp [Task.isPD] at hsingle
      · intro hsingle
        simp [Task.isPD] at hsingle

theorem regWF_foldl {m : ℕ} :
    ∀ (ts : List Task) (R : Registry), RegWF m R → RegWF m (ts.foldl registerTask R) := by
  intro ts
  induction ts with
  | nil => intro R h; exact h
  | cons t ts ih => intro R h; exact ih _ (regWF_registerTask h t)

theorem regWF_build (agents : List Agent) (tasks : List Task) :
    RegWF agents.length (buildRegistry agents tasks) := by
  refine regWF_foldl tasks _ ?_
  refine ⟨by simp, ?_, ?_, ?_, ?_, ?_, ?_, ?_, ?_, ?_, ?_, ?_⟩ <;> simp

theorem nodup_fst_inj {α : Type _} {l : List (ℕ × α)} (hnodup : (l.map Prod.fst).Nodup)
    {x y : ℕ × α} (hx : x ∈ l) (hy : y ∈ l) (hfst : x.1 = y.1) : x = y := by
  have := List.inj_on_of_nodup_map hnodup
  exact this hx hy hfst

theorem find?_eq_of_mem_nodup {l : List (ℕ × Task)} (hnodup : (l.map Prod.fst).Nodup)
    {e : ℕ × Task} (he : e ∈ l) : l.find? (fun x => e.1 == x.1) = some e := by
  induction l with
  | nil => simp at he
  | cons a t ih =>
    rw [List.map_cons] at hnodup
    rcases List.mem_cons.mp he with rfl | het
    · rw [List.find?_cons_of_pos _ (by simp)]
    · by_cases ha : e.1 = a.1
      · exfalso
        rcases List.nodup_cons.mp hnodup with ⟨hnotin, _⟩
        exact hnotin (ha ▸ List.mem_map_of_mem Prod.fst het)
      · rw [List.find?_cons_of_neg _ (by simpa using ha)]
        exact ih (List.nodup_cons.mp hnodup).2 het

theorem find?_pd_eq_of_mem_nodup {l : List (ℕ × ℕ)} (hnodup : (l.map Prod.fst).Nodup)
    {e : ℕ × ℕ} (he : e ∈ l) : l.find? (fun x => e.1 == x.1) = some e := by
  induction l with
  | nil => simp at he
  | cons a t ih =>
    rw [List.map_cons] at hnodup
    rcases List.mem_cons.mp he with rfl | het
    · rw [List.find?_cons_of_pos _ (by simp)]
    · by_cases ha : e.1 = a.1
      · exfalso
        rcases List.nodup_cons.mp hnodup with ⟨hnotin, _⟩
        exact hnotin (ha ▸ List.mem_map_of_mem Prod.fst het)
      · rw [List.find?_cons_of_neg _ (by simpa using ha)]
        exact ih (List.nodup_cons.mp hnodup).2 het

theorem foldl_ite_no_match {β : Type _} (l : List (ℕ × Task)) (node : ℕ)
    (G : β → (ℕ × Task) → β) (init : β) (h : ∀ x ∈ l, ¬ node = x.1) :
    l.foldl (fun s x => if node = x.1 then G s x else s) init = init := by
  induction l generalizing init with
  | nil => rfl
  | cons a t ih =>
    simp only [List.foldl_cons]
    rw [if_neg (h a (List.mem_cons_self a t))]
    exact ih init (fun x hx => h x (List.mem_cons_of_mem a hx))

theorem foldl_ite_unique {β : Type _} {l : List (ℕ × Task)} {node : ℕ}
    (G : β → (ℕ × Task) → β) (init : β) {x₀ : ℕ × Task}
    (hnodup : (l.map Prod.fst).Nodup)
    (hfind : l.find? (fun x => node == x.1) = some x₀) :
    l.foldl (fun s x => if node = x.1 then G s x else s) init = G init x₀ := by
  induction l generalizing init with
  | nil => simp at hfind
  | cons a t ih =>
    rw [List.map_cons] at hnodup
    by_cases ha : node = a.1
    · rw [List.find?_cons_of_pos _ (by simpa using ha)] at hfind
      have hax : a = x₀ := by simpa using hfind
      subst hax
      simp only [List.foldl_cons, if_pos ha]
      refine foldl_ite_no_match t node G _ ?_
      intro x hx heq
      rcases List.nodup_cons.mp hnodup with ⟨hnotin, _⟩
      refine hnotin ?_
      rw [← ha, heq]
      exact List.mem_map_of_mem Prod.fst hx
    · rw [List.find?_cons_of_neg _ (by simpa using ha)] at hfind
      simp only [List.foldl_cons, if_neg ha]
      exact ih init (List.nodup_cons.mp hnodup).2 hfind

theorem processNode_visited {R : Registry} {node : ℕ} {v : List ℕ} {r : List RouteEntry}
    {d : ℕ} (h : node ∈ v) : processNode R node v r d = (v, r, d) := by
  simp [processNode, h]

theorem processNode_no_entry {R : Registry} {node : ℕ} {v : List ℕ} {r : List RouteEntry}
    {d : ℕ} (hv : node ∉ v)
    (hfind : R.task_indices.find? (fun x => node == x.1) = none) :
    processNode R node v r d = (v, r, d) := by
  unfold processNode
  rw [if_neg hv]
  refine foldl_ite_no_match _ _ _ _ ?_
  intro x hx heq
  have := List.find?_eq_none.mp hfind x hx
  simp [heq] at this

theorem processNode_single {m : ℕ} {R : Registry} {node : ℕ} {v : List ℕ}
    {r : List RouteEntry} {d : ℕ} {x : ℕ × Task} {i du : ℕ} {s : String} {loc : Coord}
    (hwf : RegWF m R) (hv : node ∉ v)
    (hfind : R.task_indices.find? (fun y => node == y.1) = some x)
    (hx : x.2 = Task.single i s loc du) :
    processNode R node v r d = (node :: v, r ++ [RouteEntry.task i], d + du) := by
  unfold processNode
  rw [if_neg hv, foldl_ite_unique _ _ hwf.ti_nodup hfind, hx]
  simp [Task.duration]

theorem processNode_pickup {m : ℕ} {R : Registry} {node : ℕ} {v : List ℕ}
    {r : List RouteEntry} {d : ℕ} {x : ℕ × Task} {i du : ℕ} {s : String} {pl dl : Coord}
    {y : ℕ × ℕ} (hwf : RegWF m R) (hv : node ∉ v)
    (hfind : R.task_indices.find? (fun z => node == z.1) = some x)
    (hx : x.2 = Task.pickup_delivery i s pl dl du)
    (hpd : R.pickup_delivery_indices.find? (fun pd => node == pd.1) = some y) :
    processNode R node v r d = (y.2 :: y.1 :: v, r ++ [RouteEntry.taskPD i], d + du) := by
  unfold processNode
  rw [if_neg hv, foldl_ite_unique _ _ hwf.ti_nodup hfind, hx]
  simp [hpd, Task.duration]

theorem processNode_drop {m : ℕ} {R : Registry} {node : ℕ} {v : List ℕ}
    {r : List RouteEntry} {d : ℕ} {x : ℕ × Task} {i du : ℕ} {s : String} {pl dl : Coord}
    (hwf : RegWF m R) (hv : node ∉ v)
    (hfind : R.task_indices.find? (fun z => node == z.1) = some x)
    (hx : x.2 = Task.pickup_delivery i s pl dl du)
    (hpd : R.pickup_delivery_indices.find? (fun pd => node == pd.1) = none) :
    processNode R node v r d = (v, r, d + du) := by
  unfold processNode
  rw [if_neg hv, foldl_ite_unique _ _ hwf.ti_nodup hfind, hx]
  simp [hpd, Task.duration]

theorem emitEntry_no_entry {R : Registry} {node : ℕ}
    (hfind : R.task_indices.find? (fun x => node == x.1) = none) :
    emitEntry R node = none := by
  simp [emitEntry, hfind]

theorem emitDuration_no_entry {R : Registry} {node : ℕ}
    (hfind : R.task_indices.find? (fun x => node == x.1) = none) :
    emitDuration R node = 0 := by
  simp [emitDuration, hfind]

theorem emitEntry_single {R : Registry} {node : ℕ} {x : ℕ × Task} {i du : ℕ} {s : String}
    {loc : Coord} (hfind : R.task_indices.find? (fun y => node == y.1) = some x)
    (hx : x.2 = Task.single i s loc du) :
    emitEntry R node = some (RouteEntry.task i) := by
  simp [emitEntry, hfind, hx]

theorem emitDuration_single {R : Registry} {node : ℕ} {x : ℕ × Task} {i du : ℕ}
    {s : String} {loc : Coord}
    (hfind : R.task_indices.find? (fun y => node == y.1) = some x)
    (hx : x.2 = Task.single i s loc du) : emitDuration R node = du := by
  simp [emitDuration, hfind, hx, Task.duration]

theorem emitEntry_pickup {R : Registry} {node : ℕ} {x : ℕ × Task} {i du : ℕ} {s : String}
    {pl dl : Coord} {y : ℕ × ℕ}
    (hfind : R.task_indices.find? (fun z => node == z.1) = some x)
    (hx : x.2 = Task.pickup_delivery i s pl dl du)
    (hpd : R.pickup_delivery_indices.find? (fun pd => node == pd.1) = some y) :
    emitEntry R node = some (RouteEntry.taskPD i) := by
  simp [emitEntry, hfind, hx, hpd]

theorem emitDuration_pickup {R : Registry} {node : ℕ} {x : ℕ × Task} {i du : ℕ}
    {s : String} {pl dl : Coord} {y : ℕ × ℕ}
    (hfind : R.task_indices.find? (fun z => node == z.1) = some x)
    (hx : x.2 = Task.pickup_delivery i s pl dl du)
    (hpd : R.pickup_delivery_indices.find? (fun pd => node == pd.1) = some y) :
    emitDuration R node = du := by
  simp [emitDuration, hfind, hx, hpd, Task.duration]

theorem emitEntry_drop {R : Registry} {node : ℕ} {x : ℕ × Task} {i du : ℕ} {s : String}
    {pl dl : Coord} (hfind : R.task_indices.find? (fun z => node == z.1) = some x)
    (hx : x.2 = Task.pickup_delivery i s pl dl du)
    (hpd : R.pickup_delivery_indices.find? (fun pd => node == pd.1) = none) :
    emitEntry R node = none := by
  simp [emitEntry, hfind, hx, hpd]

theorem emitDuration_drop {R : Registry} {node : ℕ} {x : ℕ × Task} {i du : ℕ}
    {s : String} {pl dl : Coord}
    (hfind : R.task_indices.find? (fun z => node == z.1) = some x)
    (hx : x.2 = Task.pickup_delivery i s pl dl du)
    (hpd : R.pickup_delivery_indices.find? (fun pd => node == pd.1) = none) :
    emitDuration R node = 0 := by
  simp [emitDuration, hfind, hx, hpd]

theorem find?_pd_none_at_drop {m : ℕ} {R : Registry} (hwf : RegWF m R) {y : ℕ × ℕ}
    (hy : y ∈ R.pickup_delivery_indices) :
    R.pickup_delivery_indices.find? (fun z => y.2 == z.1) = none := by
  rw [List.find?_eq_none]
  intro z hz
  simp only [beq_iff_eq]
  intro heq
  exact hwf.pd_fst_ne_snd z hz y hy heq.symm

theorem sublist_pair_cons {a b h : ℕ} {t : List ℕ} (hs : List.Sublist [a, b] (h :: t)) :
    (a = h ∧ List.Sublist [b] t) ∨ List.Sublist [a, b] t := by
  cases hs with
  | cons _ hs => exact Or.inr hs
  | cons₂ _ hs => exact Or.inl ⟨rfl, hs⟩

theorem notPD_of_single {i du : ℕ} {s : String} {loc : Coord} {x : ℕ × Task}
    (hx : x.2 = Task.single i s loc du) : x.2.isPD = false := by
  rw [hx]
  rfl

theorem isPD_of_pd {i du : ℕ} {s : String} {pl dl : Coord} {x : ℕ × Task}
    (hx : x.2 = Task.pickup_delivery i s pl dl du) : x.2.isPD = true := by
  rw [hx]
  rfl

theorem processRDV_spec {m : ℕ} {R : Registry} (hwf : RegWF m R) :
    ∀ (ws : List ℕ) (v : List ℕ) (r : List RouteEntry) (d : ℕ),
      ws.Nodup →
      (∀ x ∈ ws, x ∈ v → ∃ y ∈ R.pickup_delivery_indices, x = y.2 ∧ y.1 ∈ v) →
      (∀ y ∈ R.pickup_delivery_indices, y.1 ∈ v → y.2 ∈ v) →
      (∀ y ∈ R.pickup_delivery_indices, y.2 ∈ ws →
        y.1 ∈ v ∨ List.Sublist [y.1, y.2] ws) →
      (processRDV R ws (v, r, d)).2.1 = r ++ ws.filterMap (emitEntry R) ∧
      (processRDV R ws (v, r, d)).2.2 = d + (ws.map (emitDuration R)).sum ∧
      (∀ x ∈ (processRDV R ws (v, r, d)).1,
        x ∈ v ∨ x ∈ ws ∨ ∃ y ∈ R.pickup_delivery_indices, x = y.2 ∧ y.1 ∈ ws) ∧
      (∀ y ∈ R.pickup_delivery_indices,
        y.1 ∈ (processRDV R ws (v, r, d)).1 → y.2 ∈ (processRDV R ws (v, r, d)).1) := by
  intro ws
  induction ws with
  | nil =>
    intro v r d _ _ hinv _
    refine ⟨by simp [processRDV], by simp [processRDV], ?_, ?_⟩
    · intro x hx
      exact Or.inl (by simpa [processRDV] using hx)
    · intro y hy h1
      simp only [processRDV, List.foldl_nil] at h1 ⊢
      exact hinv y hy h1
  | cons h t ih =>
    intro v r d hnodup hH3 hinv hH4
    have hproc : processRDV R (h :: t) (v, r, d) =
        processRDV R t (processNode R h v r d) := by
      simp [processRDV]
    have hmemt : h ∉ t := (List.nodup_cons.mp hnodup).1
    have hnodupt : t.Nodup := (List.nodup_cons.mp hnodup).2
    by_cases hv : h ∈ v
    · -- an already-visited node: necessarily a drop whose pickup was seen
      rcases hH3 h (List.mem_cons_self h t) hv with ⟨y, hy, heq2, hy1⟩
      rcases hwf.pd_entries y hy with ⟨tt, _, hty2, htpd⟩
      have hemit : emitEntry R h = none ∧ emitDuration R h = 0 := by
        rcases tt with _ | ⟨i, s, pl, dl, du⟩
        · simp [Task.isPD] at htpd
        · have hfind : R.task_indices.find? (fun x => h == x.1) =
              some (y.2, Task.pickup_delivery i s pl dl du) := by
            rw [heq2]
            exact find?_eq_of_mem_nodup hwf.ti_nodup hty2
          have hpdn : R.pickup_delivery_indices.find? (fun z => h == z.1) = none := by
            rw [heq2]
            exact find?_pd_none_at_drop hwf hy
          exact ⟨emitEntry_drop hfind rfl hpdn, emitDuration_drop hfind rfl hpdn⟩
      have hdur : emitDuration R h = 0 := hemit.2
      rw [hproc, processNode_visited hv]
      have hH4t : ∀ z ∈ R.pickup_delivery_indices, z.2 ∈ t →
          z.1 ∈ v ∨ List.Sublist [z.1, z.2] t := by
        intro z hz hzt
        rcases hH4 z hz (List.mem_cons_of_mem h hzt) with hzv | hsub
        · exact Or.inl hzv
        · rcases sublist_pair_cons hsub with ⟨hzh, _⟩ | hsub'
          · exfalso
            exact hwf.pd_fst_ne_snd z hz y hy (hzh.trans heq2)
          · exact Or.inr hsub'
      rcases ih v r d hnodupt
        (fun x hx hxv => hH3 x (List.mem_cons_of_mem h hx) hxv) hinv hH4t with
        ⟨ihr, ihd, ihv, ihinv⟩
      refine ⟨?_, ?_, ?_, ihinv⟩
      · rw [ihr, List.filterMap_cons, hemit.1]
      · rw [ihd, List.map_cons, List.sum_cons, hdur, zero_add]
      · intro x hx
        rcases ihv x hx with h1 | h1 | ⟨z, hz, hz2, hz1⟩
        · exact Or.inl h1
        · exact Or.inr (Or.inl (List.mem_cons_of_mem h h1))
        · exact Or.inr (Or.inr ⟨z, hz, hz2, List.mem_cons_of_mem h hz1⟩)
    · -- a fresh node
      rcases hfindcase : R.task_indices.find? (fun x => h == x.1) with _ | x
      · -- not a task node
        rw [hproc, processNode_no_entry hv hfindcase]
        have hH4t : ∀ z ∈ R.pickup_delivery_indices, z.2 ∈ t →
            z.1 ∈ v ∨ List.Sublist [z.1, z.2] t := by
          intro z hz hzt
          rcases hH4 z hz (List.mem_cons_of_mem h hzt) with hzv | hsub
          · exact Or.inl hzv
          · rcases sublist_pair_cons hsub with ⟨hzh, _⟩ | hsub'
            · exfalso
              rcases hwf.pd_entries z hz with ⟨tt, htz1, _, _⟩
              have := List.find?_eq_none.mp hfindcase (z.1, tt) htz1
              simp [hzh] at this
            · exact Or.inr hsub'
        rcases ih v r d hnodupt
          (fun x hx hxv => hH3 x (List.mem_cons_of_mem h hx) hxv) hinv hH4t with
          ⟨ihr, ihd, ihv, ihinv⟩
        refine ⟨?_, ?_, ?_, ihinv⟩
        · rw [ihr, List.filterMap_cons, emitEntry_no_entry hfindcase]
        · rw [ihd, List.map_cons, List.sum_cons, emitDuration_no_entry hfindcase, zero_add]
        · intro x hx
          rcases ihv x hx with h1 | h1 | ⟨z, hz, hz2, hz1⟩
          · exact Or.inl h1
          · exact Or.inr (Or.inl (List.mem_cons_of_mem h h1))
          · exact Or.inr (Or.inr ⟨z, hz, hz2, List.mem_cons_of_mem h hz1⟩)
      · -- h is a task node with entry x
        have hx1 : h = x.1 := by
          have := List.find?_some hfindcase
          simpa using this
        have hxmem : x ∈ R.task_indices := List.mem_of_find?_eq_some hfindcase
        rcases hxshape : x.2 with ⟨i, s, loc, du⟩ | ⟨i, s, pl, dl, du⟩
        · -- single-task node
          rw [hproc, processNode_single hwf hv hfindcase hxshape]
          have hnotpd : ∀ z ∈ R.pickup_delivery_indices, x.1 ≠ z.1 ∧ x.1 ≠ z.2 :=
            hwf.ti_single x hxmem (notPD_of_single hxshape)
          have hH3t : ∀ x' ∈ t, x' ∈ h :: v →
              ∃ y ∈ R.pickup_delivery_indices, x' = y.2 ∧ y.1 ∈ h :: v := by
            intro x' hx' hx'v
            rcases List.mem_cons.mp hx'v with rfl | hx'v
            · exact absurd hx' hmemt
            · rcases hH3 x' (List.mem_cons_of_mem h hx') hx'v with ⟨y, hy, hy2, hy1⟩
              exact ⟨y, hy, hy2, List.mem_cons_of_mem h hy1⟩
          have hinvt : ∀ z ∈ R.pickup_delivery_indices, z.1 ∈ h :: v → z.2 ∈ h :: v := by
            intro z hz hz1
            rcases List.mem_cons.mp hz1 with hzh | hz1
            · exact absurd (hx1.symm.trans hzh.symm) (hnotpd z hz).1
            · exact List.mem_cons_of_mem h (hinv z hz hz1)
          have hH4t : ∀ z ∈ R.pickup_delivery_indices, z.2 ∈ t →
              z.1 ∈ h :: v ∨ List.Sublist [z.1, z.2] t := by
            intro z hz hzt
            rcases hH4 z hz (List.mem_cons_of_mem h hzt) with hzv | hsub
            · exact Or.inl (List.mem_cons_of_mem h hzv)
            · rcases sublist_pair_cons hsub with ⟨hzh, _⟩ | hsub'
              · exact absurd (hx1.symm.trans hzh.symm) (hnotpd z hz).1
              · exact Or.inr hsub'
          rcases ih (h :: v) (r ++ [RouteEntry.task i]) (d + du) hnodupt hH3t hinvt hH4t with
            ⟨ihr, ihd, ihv, ihinv⟩
          refine ⟨?_, ?_, ?_, ihinv⟩
          · rw [ihr, List.filterMap_cons, emitEntry_single hfindcase hxshape]
            simp
          · rw [ihd, List.map_cons, List.sum_cons, emitDuration_single hfindcase hxshape]
            omega
          · intro x' hx'
            rcases ihv x' hx' with h1 | h1 | ⟨z, hz, hz2, hz1⟩
            · rcases List.mem_cons.mp h1 with rfl | h1
              · exact Or.inr (Or.inl (List.mem_cons_self x' t))
              · exact Or.inl h1
            · exact Or.inr (Or.inl (List.mem_cons_of_mem h h1))
            · exact Or.inr (Or.inr ⟨z, hz, hz2, List.mem_cons_of_mem h hz1⟩)
        · -- pickup-delivery task node: pickup or drop half
          rcases hpdcase : R.pickup_delivery_indices.find? (fun pd => h == pd.1) with _ | y
          · -- drop half reached while unvisited: impossible under the ordering
            exfalso
            rcases hwf.ti_pd x hxmem (isPD_of_pd hxshape) with ⟨z, hz, hz12, _, _⟩
            rcases hz12 with hz1 | hz2
            · have hne := List.find?_eq_none.mp hpdcase z hz
              simp only [beq_iff_eq] at hne
              exact hne (hx1.trans hz1)
            · have hh2 : h = z.2 := hx1.trans hz2
              rcases hH4 z hz (hh2 ▸ List.mem_cons_self h t) with hzv | hsub
              · exact hv (hh2 ▸ hinv z hz hzv)
              · rcases sublist_pair_cons hsub with ⟨hzh, _⟩ | hsub'
                · have := hwf.pd_succ z hz
                  omega
                · have : z.2 ∈ t := hsub'.subset (by simp)
                  exact hmemt (hh2 ▸ this)
          · -- pickup half
            have hy1 : h = y.1 := by
              have := List.find?_some hpdcase
              simpa using this
            have hymem : y ∈ R.pickup_delivery_indices := List.mem_of_find?_eq_some hpdcase
            rw [hproc, processNode_pickup hwf hv hfindcase hxshape hpdcase]
            have hH3t : ∀ x' ∈ t, x' ∈ y.2 :: y.1 :: v →
                ∃ z ∈ R.pickup_delivery_indices, x' = z.2 ∧ z.1 ∈ y.2 :: y.1 :: v := by
              intro x' hx' hx'v
              rcases List.mem_cons.mp hx'v with rfl | hx'v
              · exact ⟨y, hymem, rfl, List.mem_cons_of_mem _ (List.mem_cons_self _ _)⟩
              rcases List.mem_cons.mp hx'v with rfl | hx'v
              · exact absurd hx' (hy1 ▸ hmemt)
              · rcases hH3 x' (List.mem_cons_of_mem h hx') hx'v with ⟨z, hz, hz2, hz1⟩
                exact ⟨z, hz, hz2,
                  List.mem_cons_of_mem _ (List.mem_cons_of_mem _ hz1)⟩
            have hinvt : ∀ z ∈ R.pickup_delivery_indices, z.1 ∈ y.2 :: y.1 :: v →
                z.2 ∈ y.2 :: y.1 :: v := by
              intro z hz hz1
              rcases List.mem_cons.mp hz1 with hzh | hz1
              · exact absurd hzh (hwf.pd_fst_ne_snd z hz y hymem)
              rcases List.mem_cons.mp hz1 with hzh | hz1
              · have hzy : z = y := nodup_fst_inj hwf.pd_fst_nodup hz hymem hzh
                rw [hzy]
                exact List.mem_cons_self _ _
              · exact List.mem_cons_of_mem _ (List.mem_cons_of_mem _ (hinv z hz hz1))
            have hH4t : ∀ z ∈ R.pickup_delivery_indices, z.2 ∈ t →
                z.1 ∈ y.2 :: y.1 :: v ∨ List.Sublist [z.1, z.2] t := by
              intro z hz hzt
              rcases hH4 z hz (List.mem_cons_of_mem h hzt) with hzv | hsub
              · exact Or.inl (List.mem_cons_of_mem _ (List.mem_cons_of_mem _ hzv))
              · rcases sublist_pair_cons hsub with ⟨hzh, _⟩ | hsub'
                · have hzy : z = y :=
                    nodup_fst_inj hwf.pd_fst_nodup hz hymem (hzh.trans hy1)
                  rw [hzy]
                  exact Or.inl (List.mem_cons_of_mem _ (List.mem_cons_self _ _))
                · exact Or.inr hsub'
            rcases ih (y.2 :: y.1 :: v) (r ++ [RouteEntry.taskPD i]) (d + du)
              hnodupt hH3t hinvt hH4t with ⟨ihr, ihd, ihv, ihinv⟩
            refine ⟨?_, ?_, ?_, ihinv⟩
            · rw [ihr, List.filterMap_cons, emitEntry_pickup hfindcase hxshape hpdcase]
              simp
            · rw [ihd, List.map_cons, List.sum_cons,
                emitDuration_pickup hfindcase hxshape hpdcase]
              omega
            · intro x' hx'
              rcases ihv x' hx' with h1 | h1 | ⟨z, hz, hz2, hz1⟩
              · rcases List.mem_cons.mp h1 with rfl | h1
                · exact Or.inr (Or.inr ⟨y, hymem, rfl, hy1 ▸ List.mem_cons_self h t⟩)
                rcases List.mem_cons.mp h1 with rfl | h1
                · exact Or.inr (Or.inl (hy1 ▸ List.mem_cons_self h t))
                · exact Or.inl h1
              · exact Or.inr (Or.inl (List.mem_cons_of_mem h h1))
              · exact Or.inr (Or.inr ⟨z, hz, hz2, List.mem_cons_of_mem h hz1⟩)

end PD

theorem IndexToNode_lt {n i : ℕ} (h : i < n) : IndexToNode n i = i := if_pos h

theorem IndexToNode_end {n a : ℕ} (h : n ≤ n + a) : IndexToNode n (n + a) = a := by
  unfold IndexToNode
  rw [if_neg (by omega)]
  omega

namespace PD

theorem loopPD_components (R : Registry) (nextf : ℕ → ℕ) (n : ℕ) :
    ∀ (fuel i : ℕ) (s : LoopState),
      (loopPD R nextf n fuel i s).visited =
          (processRDV R (walkIdx nextf n fuel i)
            (s.visited, s.route, s.total_duration)).1 ∧
      (loopPD R nextf n fuel i s).route =
          (processRDV R (walkIdx nextf n fuel i)
            (s.visited, s.route, s.total_duration)).2.1 ∧
      (loopPD R nextf n fuel i s).total_duration =
          (processRDV R (walkIdx nextf n fuel i)
            (s.visited, s.route, s.total_duration)).2.2 ∧
      (loopPD R nextf n fuel i s).total_distance =
          s.total_distance + arcSumE R.locations nextf n (walkIdx nextf n fuel i) := by
  intro fuel
  induction fuel with
  | zero =>
    intro i s
    simp [loopPD, walkIdx, processRDV, arcSumE]
  | succ f ihf =>
    intro i s
    by_cases hi : n ≤ i
    · rw [walkIdx_end hi]
      simp [loopPD, hi, processRDV, arcSumE]
    · rw [walkIdx_step hi]
      have hnode : IndexToNode n i = i := IndexToNode_lt (by omega)
      have hl : loopPD R nextf n (f + 1) i s =
          loopPD R nextf n f (nextf i)
            ⟨(processNode R i s.visited s.route s.total_duration).1,
             (processNode R i s.visited s.route s.total_duration).2.1,
             s.total_distance + dmE R.locations i (IndexToNode n (nextf i)),
             (processNode R i s.visited s.route s.total_duration).2.2,
             some i⟩ := by
        simp only [loopPD, if_neg hi, hnode]
      rw [hl]
      rcases ihf (nextf i)
        ⟨(processNode R i s.visited s.route s.total_duration).1,
         (processNode R i s.visited s.route s.total_duration).2.1,
         s.total_distance + dmE R.locations i (IndexToNode n (nextf i)),
         (processNode R i s.visited s.route s.total_duration).2.2,
         some i⟩ with ⟨ihv, ihr, ihd, ihdist⟩
      have hstep : processRDV R (i :: walkIdx nextf n f (nextf i))
          (s.visited, s.route, s.total_duration) =
          processRDV R (walkIdx nextf n f (nextf i))
            ((processNode R i s.visited s.route s.total_duration).1,
             (processNode R i s.visited s.route s.total_duration).2.1,
             (processNode R i s.visited s.route s.total_duration).2.2) := by
        simp [processRDV]
      refine ⟨?_, ?_, ?_, ?_⟩
      · rw [ihv, hstep]
      · rw [ihr, hstep]
      · rw [ihd, hstep]
      · rw [ihdist]
        simp only [arcSumE, List.map_cons, List.sum_cons, hnode]
        ring

/-- Decoded route, duration and distance of every agent, under the solver
contract: the route is the walk's emitted entries, the duration is the sum of
the emitted durations, and the distance is the sum of the arcs leaving each
visited index. -/
theorem decodePD_spec (agents : List Agent) (tasks : List Task) (nextf : ℕ → ℕ)
    (hVS : ValidSolution agents tasks nextf) :
    ∀ a, a < agents.length →
      (pdResult agents tasks nextf a).route =
        (walkOf agents tasks nextf a).filterMap (emitEntry (buildRegistry agents tasks)) ∧
      (pdResult agents tasks nextf a).total_duration =
        ((walkOf agents tasks nextf a).map (emitDuration (buildRegistry agents tasks))).sum ∧
      (pdResult agents tasks nextf a).total_distance =
        arcSumE (buildRegistry agents tasks).locations nextf (numLocations agents tasks)
          (walkOf agents tasks nextf a) := by
  obtain ⟨hnd, hdisj, hends, hdropv, hpdv, helig, hcap⟩ := hVS
  have hwf := regWF_build agents tasks
  have key : ∀ k, k ≤ agents.length →
      (((List.range k).foldl
        (fun acc a =>
          let s := loopPD (buildRegistry agents tasks) nextf (numLocations agents tasks)
            (numLocations agents tasks + 1) a ⟨acc.2, [], 0, 0, none⟩
          (acc.1 ++ [s], s.visited))
        (([], []) : List LoopState × List ℕ)).1.length = k) ∧
      (∀ a, a < k →
        (((List.range k).foldl
          (fun acc a =>
            let s := loopPD (buildRegistry agents tasks) nextf (numLocations agents tasks)
              (numLocations agents tasks + 1) a ⟨acc.2, [], 0, 0, none⟩
            (acc.1 ++ [s], s.visited))
          (([], []) : List LoopState × List ℕ)).1.getD a ⟨[], [], 0, 0, none⟩).route =
            (walkOf agents tasks nextf a).filterMap
              (emitEntry (buildRegistry agents tasks)) ∧
        (((List.range k).foldl
          (fun acc a =>
            let s := loopPD (buildRegistry agents tasks) nextf (numLocations agents tasks)
              (numLocations agents tasks + 1) a ⟨acc.2, [], 0, 0, none⟩
            (acc.1 ++ [s], s.visited))
          (([], []) : List LoopState × List ℕ)).1.getD a ⟨[], [], 0, 0, none⟩).total_duration =
            ((walkOf agents tasks nextf a).map
              (emitDuration (buildRegistry agents tasks))).sum ∧
        (((List.range k).foldl
          (fun acc a =>
            let s := loopPD (buildRegistry agents tasks) nextf (numLocations agents tasks)
              (numLocations agents tasks + 1) a ⟨acc.2, [], 0, 0, none⟩
            (acc.1 ++ [s], s.visited))
          (([], []) : List LoopState × List ℕ)).1.getD a ⟨[], [], 0, 0, none⟩).total_distance =
            arcSumE (buildRegistry agents tasks).locations nextf
              (numLocations agents tasks) (walkOf agents tasks nextf a)) ∧
      (∀ x ∈ ((List.range k).foldl
          (fun acc a =>
            let s := loopPD (buildRegistry agents tasks) nextf (numLocations agents tasks)
              (numLocations agents tasks + 1) a ⟨acc.2, [], 0, 0, none⟩
            (acc.1 ++ [s], s.visited))
          (([], []) : List LoopState × List ℕ)).2,
        ∃ b, b < k ∧ x ∈ walkOf agents tasks nextf b) ∧
      (∀ y ∈ (buildRegistry agents tasks).pickup_delivery_indices,
        y.1 ∈ ((List.range k).foldl
          (fun acc a =>
            let s := loopPD (buildRegistry agents tasks) nextf (numLocations agents tasks)
              (numLocations agents tasks + 1) a ⟨acc.2, [], 0, 0, none⟩
            (acc.1 ++ [s], s.visited))
          (([], []) : List LoopState × List ℕ)).2 →
        y.2 ∈ ((List.range k).foldl
          (fun acc a =>
            let s := loopPD (buildRegistry agents tasks) nextf (numLocations agents tasks)
              (numLocations agents tasks + 1) a ⟨acc.2, [], 0, 0, none⟩
            (acc.1 ++ [s], s.visited))
          (([], []) : List LoopState × List ℕ)).2) := by
    intro k
    induction k with
    | zero =>
      intro _
      refine ⟨by simp, by omega, by simp, by simp⟩
    | succ k ihk =>
      intro hk1
      rcases ihk (by omega) with ⟨ihlen, ihres, ihvis, ihinv⟩
      rw [List.range_succ, List.foldl_append]
      simp only [List.foldl_cons, List.foldl_nil]
      set acc := (List.range k).foldl
        (fun acc a =>
          let s := loopPD (buildRegistry agents tasks) nextf (numLocations agents tasks)
            (numLocations agents tasks + 1) a ⟨acc.2, [], 0, 0, none⟩
          (acc.1 ++ [s], s.visited))
        (([], []) : List LoopState × List ℕ) with hacc
      rcases loopPD_components (buildRegistry agents tasks) nextf (numLocations agents tasks)
        (numLocations agents tasks + 1) k ⟨acc.2, [], 0, 0, none⟩ with ⟨lv, lr, ld, ldist⟩
      have hspec := processRDV_spec hwf (walkOf agents tasks nextf k) acc.2 [] 0
        (hnd k (by omega))
        (by
          intro x hx hxv
          exfalso
          rcases ihvis x hxv with ⟨b, hb, hxb⟩
          rcases hdisj k (by omega) b (by omega) with heq | hdis
          · omega
          · exact hdis x hx hxb)
        ihinv
        (by
          intro y hy hy2
          exact Or.inr ((hpdv y hy k (by omega)).2 hy2))
      rcases hspec with ⟨sr, sd, sv, sinv⟩
      refine ⟨?_, ?_, ?_, ?_⟩
      · simp [ihlen]
      · intro a ha
        by_cases hak : a < k
        · have hgetD : ∀ (l : List LoopState) (x : LoopState) (dflt : LoopState),
              a < l.length → (l ++ [x]).getD a dflt = l.getD a dflt := by
            intro l x dflt hal
            exact List.getD_append l [x] dflt a hal
          simp only [hgetD _ _ _ (by rw [ihlen]; exact hak)]
          exact ihres a hak
        · have hak2 : a = k := by omega
          subst hak2
          have hgetD : ∀ (l : List LoopState) (x : LoopState) (dflt : LoopState),
              l.length = a → (l ++ [x]).getD a dflt = x := by
            intro l x dflt hal
            rw [List.getD_append_right l [x] dflt a (by omega), hal]
            simp
          simp only [hgetD _ _ _ ihlen]
          refine ⟨?_, ?_, ?_⟩
          · rw [lr]
            unfold walkOf at sr ⊢
            rw [sr]
            simp
          · rw [ld]
            unfold walkOf at sd ⊢
            rw [sd]
            simp
          · rw [ldist]
            unfold walkOf
            simp
      · intro x hx
        rw [lv] at hx
        rcases sv x hx with h1 | h1 | ⟨y, hy, hy2, hy1⟩
        · rcases ihvis x h1 with ⟨b, hb, hxb⟩
          exact ⟨b, by omega, hxb⟩
        · exact ⟨k, by omega, h1⟩
        · refine ⟨k, by omega, ?_⟩
          rw [hy2]
          exact (hpdv y hy k (by omega)).1.mp hy1
      · intro y hy hy1
        rw [lv] at hy1 ⊢
        exact sinv y hy hy1
  intro a ha
  have hfinal := (key agents.length le_rfl).2.1 a ha
  unfold pdResult decodePD
  exact hfinal

end PD

theorem walkIdx_nil_le {nextf : ℕ → ℕ} {n fuel i : ℕ} (hf : 0 < fuel)
    (hnil : walkIdx nextf n fuel i = []) : n ≤ i := by
  by_contra h
  cases fuel with
  | zero => omega
  | succ f =>
    rw [walkIdx_step h] at hnil
    simp at hnil

theorem walkIdx_cons_head {nextf : ℕ → ℕ} {n fuel i : ℕ} {j : ℕ} {rest : List ℕ}
    (h : walkIdx nextf n fuel i = j :: rest) : j = i ∧ ¬ n ≤ i := by
  cases fuel with
  | zero => simp [walkIdx] at h
  | succ f =>
    by_cases hi : n ≤ i
    · rw [walkIdx_end hi] at h
      simp at h
    · rw [walkIdx_step hi] at h
      exact ⟨(List.cons.injEq _ _ _ _ ▸ h).1.symm, hi⟩

namespace Sched

theorem loopS_components (tasks : List Task) (locs : List (ℝ × ℝ)) (m n : ℕ)
    (nextf : ℕ → ℕ) :
    ∀ (fuel i : ℕ) (s : SLoopState),
      (loopS tasks locs m n nextf fuel i s).route =
        s.route ++ ((walkIdx nextf n fuel i).filter (fun x => decide (m ≤ x))).map
          (fun x => (tasks.getD (x - m) default).id) ∧
      (loopS tasks locs m n nextf fuel i s).total_duration =
        s.total_duration + ((walkIdx nextf n fuel i).map
          (fun x => if m ≤ x then (tasks.getD (x - m) default).duration else 0)).sum ∧
      (loopS tasks locs m n nextf fuel i s).total_distance =
        s.total_distance + ((walkIdx nextf n fuel i).map
          (fun x => if n ≤ nextf x then 0 else dmH locs x (IndexToNode n (nextf x)))).sum := by
  intro fuel
  induction fuel with
  | zero =>
    intro i s
    simp [loopS, walkIdx]
  | succ f ihf =>
    intro i s
    by_cases hi : n ≤ i
    · rw [walkIdx_end hi]
      simp [loopS, hi]
    · rw [walkIdx_step hi]
      have hnode : IndexToNode n i = i := IndexToNode_lt (by omega)
      by_cases him : m ≤ i
      · by_cases hjn : n ≤ nextf i
        · have hstep : loopS tasks locs m n nextf (f + 1) i s =
              loopS tasks locs m n nextf f (nextf i)
                ⟨s.route ++ [(tasks.getD (i - m) default).id], s.total_distance,
                 s.total_duration + (tasks.getD (i - m) default).duration⟩ := by
            simp only [loopS, if_neg hi, hnode, if_pos him, if_pos hjn]
          rw [hstep]
          rcases ihf (nextf i) ⟨s.route ++ [(tasks.getD (i - m) default).id],
            s.total_distance, s.total_duration + (tasks.getD (i - m) default).duration⟩ with
            ⟨ihr, ihd, ihdist⟩
          refine ⟨?_, ?_, ?_⟩
          · rw [ihr]
            simp [List.filter_cons, him]
          · rw [ihd]
            simp only [List.map_cons, List.sum_cons, if_pos him]
            omega
          · rw [ihdist]
            simp [hjn]
        · have hstep : loopS tasks locs m n nextf (f + 1) i s =
              loopS tasks locs m n nextf f (nextf i)
                ⟨s.route ++ [(tasks.getD (i - m) default).id],
                 s.total_distance + dmH locs i (IndexToNode n (nextf i)),
                 s.total_duration + (tasks.getD (i - m) default).duration⟩ := by
            simp only [loopS, if_neg hi, hnode, if_pos him, if_neg hjn]
          rw [hstep]
          rcases ihf (nextf i) ⟨s.route ++ [(tasks.getD (i - m) default).id],
            s.total_distance + dmH locs i (IndexToNode n (nextf i)),
            s.total_duration + (tasks.getD (i - m) default).duration⟩ with
            ⟨ihr, ihd, ihdist⟩
          refine ⟨?_, ?_, ?_⟩
          · rw [ihr]
            simp [List.filter_cons, him]
          · rw [ihd]
            simp only [List.map_cons, List.sum_cons, if_pos him]
            omega
          · rw [ihdist]
            simp only [List.map_cons, List.sum_cons, if_neg hjn]
            ring
      · by_cases hjn : n ≤ nextf i
        · have hstep : loopS tasks locs m n nextf (f + 1) i s =
              loopS tasks locs m n nextf f (nextf i) s := by
            simp only [loopS, if_neg hi, hnode, if_neg him, if_pos hjn]
          rw [hstep]
          rcases ihf (nextf i) s with ⟨ihr, ihd, ihdist⟩
          refine ⟨?_, ?_, ?_⟩
          · rw [ihr]
            simp [List.filter_cons, him]
          · rw [ihd]
            simp [him]
          · rw [ihdist]
            simp [hjn]
        · have hstep : loopS tasks locs m n nextf (f + 1) i s =
              loopS tasks locs m n nextf f (nextf i)
                ⟨s.route, s.total_distance + dmH locs i (IndexToNode n (nextf i)),
                 s.total_duration⟩ := by
            simp only [loopS, if_neg hi, hnode, if_neg him, if_neg hjn]
          rw [hstep]
          rcases ihf (nextf i) ⟨s.route,
            s.total_distance + dmH locs i (IndexToNode n (nextf i)), s.total_duration⟩ with
            ⟨ihr, ihd, ihdist⟩
          refine ⟨?_, ?_, ?_⟩
          · rw [ihr]
            simp [List.filter_cons, him]
          · rw [ihd]
            simp [him]
          · rw [ihdist]
            simp only [List.map_cons, List.sum_cons, if_neg hjn]
            ring

theorem zipArcsH_cons_cons (locs : List (ℝ × ℝ)) (a b : ℕ) (rest : List ℕ) :
    zipArcsH locs (a :: b :: rest) = dmH locs a b + zipArcsH locs (b :: rest) := by
  simp [zipArcsH]

/-- With a terminating walk, the guarded arc accumulation of the scheduling
decoder (which skips the arc into the vehicle end) is exactly the sum over
consecutive walk pairs: the final return arc is never added. -/
theorem guarded_sum_eq_zip (locs : List (ℝ × ℝ)) (nextf : ℕ → ℕ) (n : ℕ) :
    ∀ (fuel i : ℕ), (walkIdx nextf n fuel i).length < fuel →
      ((walkIdx nextf n fuel i).map
        (fun x => if n ≤ nextf x then 0 else dmH locs x (IndexToNode n (nextf x)))).sum =
      zipArcsH locs (walkIdx nextf n fuel i) := by
  intro fuel
  induction fuel with
  | zero => intro i h; omega
  | succ f ihf =>
    intro i hlen
    by_cases hi : n ≤ i
    · rw [walkIdx_end hi]
      simp [zipArcsH]
    · rw [walkIdx_step hi] at hlen ⊢
      simp only [List.length_cons] at hlen
      rcases hrest : walkIdx nextf n f (nextf i) with _ | ⟨j, rest'⟩
      · have hend : n ≤ nextf i := walkIdx_nil_le (by omega) hrest
        simp [hrest, zipArcsH, hend]
      · rcases walkIdx_cons_head hrest with ⟨hj, hni⟩
        have hnode : IndexToNode n (nextf i) = nextf i := IndexToNode_lt (by omega)
        have ihr := ihf (nextf i) (by rw [hrest] at hlen ⊢; simpa using hlen)
        rw [hrest] at ihr
        rw [List.map_cons, List.sum_cons, ihr, if_neg hni, hnode,
          zipArcsH_cons_cons, hj]

end Sched

namespace PD

theorem zipArcsE_cons_cons (locs : List Coord) (a b : ℕ) (rest : List ℕ) :
    zipArcsE locs (a :: b :: rest) = dmE locs a b + zipArcsE locs (b :: rest) := by
  simp [zipArcsE]

/-- The unguarded arc accumulation of the pickup-delivery decoder decomposes
into the consecutive-pair arcs plus the final arc into the stop index: the
return arc is always added. -/
theorem arcSumE_decomp (locs : List Coord) (nextf : ℕ → ℕ) (n : ℕ) :
    ∀ (fuel i : ℕ), (walkIdx nextf n fuel i).length < fuel →
      arcSumE locs nextf n (walkIdx nextf n fuel i) =
        zipArcsE locs (walkIdx nextf n fuel i) +
          (if walkIdx nextf n fuel i = [] then 0
           else dmE locs ((walkIdx nextf n fuel i).getLastD 0)
             (IndexToNode n (nextf^[(walkIdx nextf n fuel i).length] i))) := by
  intro fuel
  induction fuel with
  | zero => intro i h; omega
  | succ f ihf =>
    intro i hlen
    by_cases hi : n ≤ i
    · rw [walkIdx_end hi]
      simp [arcSumE, zipArcsE]
    · rw [walkIdx_step hi] at hlen ⊢
      simp only [List.length_cons] at hlen
      have hnodei : IndexToNode n i = i := IndexToNode_lt (by omega)
      rcases hrest : walkIdx nextf n f (nextf i) with _ | ⟨j, rest'⟩
      · simp only [hrest, arcSumE, zipArcsE, List.map_cons, List.map_nil, List.sum_cons,
          List.sum_nil, hnodei]
        simp [Function.iterate_succ_apply]
      · rcases walkIdx_cons_head hrest with ⟨hj, hni⟩
        have hnode : IndexToNode n (nextf i) = nextf i := IndexToNode_lt (by omega)
        have ihr := ihf (nextf i) (by rw [hrest] at hlen ⊢; simpa using hlen)
        rw [hrest] at ihr
        have harc : arcSumE locs nextf n (i :: j :: rest') =
            dmE locs i (nextf i) + arcSumE locs nextf n (j :: rest') := by
          simp [arcSumE, hnodei, hnode]
        rw [harc, ihr, zipArcsE_cons_cons]
        have hlast : (i :: j :: rest').getLastD 0 = (j :: rest').getLastD 0 := by
          simp [List.getLastD_eq_getLast?]
        have hiter : nextf^[(i :: j :: rest').length] i =
            nextf^[(j :: rest').length] (nextf i) := by
          rw [List.length_cons, Function.iterate_succ_apply]
        rw [hlast, hiter, hj]
        simp only [List.cons_ne_nil, if_neg, ite_false]
        ring

end PD

/-- Claim C8: for every list of coordinates, the built distance matrix is
symmetric, has a zero diagonal and only non-negative entries, both for the
planar euclidean metric of the pickup-delivery script and for the haversine
metric of the scheduling script. -/
theorem C8_distance_matrix_sym_diag_nonneg (locs : List (ℝ × ℝ)) (i j : ℕ)
    (hi : i < locs.length) (hj : j < locs.length) :
    (PD.dmE locs i j = PD.dmE locs j i ∧ PD.dmE locs i i = 0 ∧ 0 ≤ PD.dmE locs i j) ∧
    (Sched.dmH locs i j = Sched.dmH locs j i ∧ Sched.dmH locs i i = 0 ∧
      0 ≤ Sched.dmH locs i j) := by
  refine ⟨⟨?_, ?_, ?_⟩, ⟨?_, ?_, ?_⟩⟩
  · rw [dmE_eq locs i j hi hj, dmE_eq locs j i hj hi, euclidean_symm]
  · rw [dmE_eq locs i i hi hi, euclidean_self]
  · rw [dmE_eq locs i j hi hj]
    exact euclidean_nonneg _ _
  · rw [dmH_eq locs i j hi hj, dmH_eq locs j i hj hi, haversine_symm]
  · rw [dmH_eq locs i i hi hi, haversine_self]
  · rw [dmH_eq locs i j hi hj]
    exact haversine_nonneg _ _

/-- Witness for C8 at a concrete two-point location list. -/
theorem C8_distance_matrix_sym_diag_nonneg_witness :
    (0 < 2 ∧ 1 < 2) ∧
      (PD.dmE [((0 : ℝ), (0 : ℝ)), (1, 1)] 0 1 = PD.dmE [((0 : ℝ), (0 : ℝ)), (1, 1)] 1 0 ∧
        PD.dmE [((0 : ℝ), (0 : ℝ)), (1, 1)] 0 0 = 0 ∧
        0 ≤ PD.dmE [((0 : ℝ), (0 : ℝ)), (1, 1)] 0 1) ∧
      (Sched.dmH [((0 : ℝ), (0 : ℝ)), (1, 1)] 0 1 = Sched.dmH [((0 : ℝ), (0 : ℝ)), (1, 1)] 1 0 ∧
        Sched.dmH [((0 : ℝ), (0 : ℝ)), (1, 1)] 0 0 = 0 ∧
        0 ≤ Sched.dmH [((0 : ℝ), (0 : ℝ)), (1, 1)] 0 1) := by
  have h := C8_distance_matrix_sym_diag_nonneg [((0 : ℝ), (0 : ℝ)), (1, 1)] 0 1
    (by norm_num) (by norm_num)
  exact ⟨⟨by norm_num, by norm_num⟩, h.1, h.2⟩

namespace PD

theorem entriesOf_registerTask (R : Registry) (t : Task) (tid : ℕ) :
    entriesOf (registerTask R t) tid =
      entriesOf R tid ++
        (if t.id = tid then
          (if t.isPD = true then [(R.locations.length, t), (R.locations.length + 1, t)]
           else [(R.locations.length, t)])
         else []) := by
  cases t with
  | single i s loc du =>
    by_cases h : i = tid
    · simp [entriesOf, registerTask, Task.id, Task.isPD, List.filter_append, h]
    · simp [entriesOf, registerTask, Task.id, Task.isPD, List.filter_append, h]
  | pickup_delivery i s pl dl du =>
    by_cases h : i = tid
    · simp [entriesOf, registerTask, Task.id, Task.isPD, List.filter_append, h]
    · simp [entriesOf, registerTask, Task.id, Task.isPD, List.filter_append, h]

theorem entriesOf_foldl_no_id :
    ∀ (ts : List Task) (R : Registry) (tid : ℕ), (∀ t ∈ ts, t.id ≠ tid) →
      entriesOf (ts.foldl registerTask R) tid = entriesOf R tid := by
  intro ts
  induction ts with
  | nil =>
    intro R tid _
    rfl
  | cons t ts ih =>
    intro R tid h
    simp only [List.foldl_cons]
    rw [ih _ tid (fun u hu => h u (List.mem_cons_of_mem t hu)), entriesOf_registerTask,
      if_neg (h t (List.mem_cons_self t ts))]
    simp

theorem pd_mono_registerTask (R : Registry) (t : Task) :
    ∀ y ∈ R.pickup_delivery_indices, y ∈ (registerTask R t).pickup_delivery_indices := by
  intro y hy
  cases t <;> simp [registerTask, hy]

theorem pd_mono_foldl : ∀ (ts : List Task) (R : Registry),
    ∀ y ∈ R.pickup_delivery_indices,
      y ∈ (ts.foldl registerTask R).pickup_delivery_indices := by
  intro ts
  induction ts with
  | nil =>
    intro R y hy
    exact hy
  | cons t ts ih =>
    intro R y hy
    exact ih _ y (pd_mono_registerTask R t y hy)

/-- Node entries of a task with a unique id: a pickup-delivery task owns
exactly its pickup node and the drop node right after it, and those two nodes
form a registered pickup-delivery pair; a single task owns exactly one node. -/
theorem entriesOf_build (agents : List Agent) (tasks : List Task) (t : Task)
    (ht : t ∈ tasks) (hid : (tasks.map Task.id).Nodup) :
    (t.isPD = true → ∃ p, (p, p + 1) ∈ (buildRegistry agents tasks).pickup_delivery_indices ∧
       entriesOf (buildRegistry agents tasks) t.id = [(p, t), (p + 1, t)]) ∧
    (t.isPD = false → ∃ p, entriesOf (buildRegistry agents tasks) t.id = [(p, t)]) := by
  rcases List.append_of_mem ht with ⟨ts1, ts2, rfl⟩
  rw [List.map_append, List.map_cons] at hid
  rcases List.nodup_append.mp hid with ⟨h1, h2, h3⟩
  have hts1 : ∀ u ∈ ts1, u.id ≠ t.id := by
    intro u hu heq
    exact h3 (List.mem_map_of_mem Task.id hu) (by rw [heq]; exact List.mem_cons_self _ _)
  have hts2 : ∀ u ∈ ts2, u.id ≠ t.id := by
    intro u hu heq
    rcases List.nodup_cons.mp h2 with ⟨hnotin, _⟩
    exact hnotin (heq ▸ List.mem_map_of_mem Task.id hu)
  unfold buildRegistry
  rw [List.foldl_append, List.foldl_cons]
  have hempty : entriesOf (ts1.foldl registerTask
      ⟨agents.map Agent.location, [], []⟩) t.id = [] := by
    rw [entriesOf_foldl_no_id ts1 _ t.id hts1]
    rfl
  rw [entriesOf_foldl_no_id ts2 _ t.id hts2, entriesOf_registerTask, hempty, if_pos rfl]
  constructor
  · intro hpd
    rw [if_pos hpd]
    refine ⟨(ts1.foldl registerTask ⟨agents.map Agent.location, [], []⟩).locations.length,
      ?_, by simp⟩
    refine pd_mono_foldl ts2 _ _ ?_
    rcases t with _ | ⟨i, s, pl, dl, du⟩
    · simp [Task.isPD] at hpd
    · simp [registerTask]
  · intro hnpd
    rw [if_neg (by rw [hnpd]; simp)]
    exact ⟨(ts1.foldl registerTask ⟨agents.map Agent.location, [], []⟩).locations.length,
      by simp⟩

/-- The unassigned-task report, in closed form: the ids of the task-node
entries whose node is left on a self-loop, one report per node. -/
theorem unassignedTasks_eq (R : Registry) (nextf : ℕ → ℕ) :
    unassignedTasks R nextf =
      (R.task_indices.filter (fun x => decide (nextf x.1 = x.1))).map (fun x => x.2.id) := by
  unfold unassignedTasks
  rw [foldl_guard_append (fun x : ℕ × Task => nextf x.1 = x.1) (fun x => x.2.id)
    R.task_indices []]
  simp

/-- Membership in the removed-assignment list of the pickup-delivery script. -/
theorem removedPairs_mem (R : Registry) (agents : List Agent) (li a : ℕ) :
    (li, a) ∈ removedPairs R agents ↔
      ∃ x ∈ R.task_indices, x.1 = li ∧ a < agents.length ∧
        ((agents.getD a default).skills.contains x.2.skill) = false := by
  unfold removedPairs
  rw [foldl_append_eq_join]
  simp only [List.nil_append, List.mem_flatten, List.mem_map]
  constructor
  · rintro ⟨l, ⟨x, hx, rfl⟩, hmem⟩
    rcases List.mem_map.mp hmem with ⟨b, hb, heq⟩
    rcases List.mem_filter.mp hb with ⟨hbr, hbs⟩
    refine ⟨x, hx, ?_, ?_, ?_⟩
    · exact (Prod.mk.injEq _ _ _ _ ▸ heq).1.symm ▸ rfl
    · have := (Prod.mk.injEq _ _ _ _ ▸ heq).2
      rw [← this]
      exact List.mem_range.mp hbr
    · have hb2 := (Prod.mk.injEq _ _ _ _ ▸ heq).2
      rw [← hb2]
      simpa using hbs
  · rintro ⟨x, hx, hx1, ha, hs⟩
    refine ⟨((List.range agents.length).filter
      (fun b => !((agents.getD b default).skills.contains x.2.skill))).map
        (fun b => (x.1, b)), ⟨x, hx, rfl⟩, ?_⟩
    refine List.mem_map.mpr ⟨a, ?_, by rw [hx1]⟩
    refine List.mem_filter.mpr ⟨List.mem_range.mpr ha, by simpa using hs⟩

end PD

theorem two_le_length_of_mem_ne {α : Type _} {l : List α} {a b : α} (ha : a ∈ l)
    (hb : b ∈ l) (hne : a ≠ b) : 2 ≤ l.length := by
  rcases List.append_of_mem ha with ⟨s, t, rfl⟩
  rw [List.mem_append, List.mem_cons] at hb
  rcases hb with h | h | h
  · have : s ≠ [] := List.ne_nil_of_mem h
    have : 0 < s.length := List.length_pos.mpr this
    simp only [List.length_append, List.length_cons]
    omega
  · exact absurd h.symm hne
  · have : t ≠ [] := List.ne_nil_of_mem h
    have : 0 < t.length := List.length_pos.mpr this
    simp only [List.length_append, List.length_cons]
    omega

namespace PD

theorem ti_snd_mem (agents : List Agent) (tasks : List Task) :
    ∀ x ∈ (buildRegistry agents tasks).task_indices, x.2 ∈ tasks := by
  have key : ∀ (ts : List Task) (R : Registry) (P : Task → Prop),
      (∀ x ∈ R.task_indices, P x.2) → (∀ t ∈ ts, P t) →
      ∀ x ∈ (ts.foldl registerTask R).task_indices, P x.2 := by
    intro ts
    induction ts with
    | nil =>
      intro R P hR _ x hx
      exact hR x hx
    | cons t ts ih =>
      intro R P hR hts x hx
      refine ih (registerTask R t) P ?_ (fun u hu => hts u (List.mem_cons_of_mem t hu)) x hx
      intro z hz
      cases t with
      | single i s loc du =>
        have hz' : z ∈ R.task_indices ∨
            z = (R.locations.length, Task.single i s loc du) := by
          simpa [registerTask] using hz
        rcases hz' with h1 | h1
        · exact hR z h1
        · rw [h1]
          exact hts _ (List.mem_cons_self _ _)
      | pickup_delivery i s pl dl du =>
        have hz' : z ∈ R.task_indices ∨
            z = (R.locations.length, Task.pickup_delivery i s pl dl du) ∨
            z = (R.locations.length + 1, Task.pickup_delivery i s pl dl du) := by
          simpa [registerTask] using hz
        rcases hz' with h1 | h1 | h1
        · exact hR z h1
        · rw [h1]
          exact hts _ (List.mem_cons_self _ _)
        · rw [h1]
          exact hts _ (List.mem_cons_self _ _)
  intro x hx
  exact key tasks ⟨agents.map Agent.location, [], []⟩ (fun t => t ∈ tasks)
    (by simp) (fun t ht => ht) x hx

theorem entriesOf_subset (R : Registry) (tid : ℕ) :
    ∀ x ∈ entriesOf R tid, x ∈ R.task_indices := by
  intro x hx
  exact List.mem_of_mem_filter hx

theorem mem_entriesOf (R : Registry) (tid : ℕ) (x : ℕ × Task) :
    x ∈ entriesOf R tid ↔ x ∈ R.task_indices ∧ x.2.id = tid := by
  unfold entriesOf
  rw [List.mem_filter]
  simp

theorem emitEntry_some_elim {R : Registry} {node : ℕ} {e : RouteEntry}
    (h : emitEntry R node = some e) :
    ∃ x, R.task_indices.find? (fun y => node == y.1) = some x ∧ x.2.id = e.eid := by
  unfold emitEntry at h
  split at h
  · exact absurd h (by simp)
  · rename_i x hfind
    refine ⟨x, hfind, ?_⟩
    split at h
    · rename_i i s loc du hx
      simp only [Option.some.injEq] at h
      rw [hx, ← h]
      rfl
    · rename_i i s pl dl du hx
      split at h
      · simp only [Option.some.injEq] at h
        rw [hx, ← h]
        rfl
      · exact absurd h (by simp)

theorem filter_filterMap_nil {f : ℕ → Option RouteEntry} {p : RouteEntry → Bool} {li : ℕ} :
    ∀ {ws : List ℕ}, (∀ node e, f node = some e → p e = true → node = li) → li ∉ ws →
      (ws.filterMap f).filter p = [] := by
  intro ws
  induction ws with
  | nil => intro _ _; rfl
  | cons h t ih =>
    intro hkey hli
    rw [List.filterMap_cons]
    rcases hfh : f h with _ | e
    · exact ih hkey (fun hmem => hli (List.mem_cons_of_mem h hmem))
    · rw [List.filter_cons]
      rcases hpe : p e with _ | _
      · simp only [Bool.false_eq_true, if_neg, ite_false]
        exact ih hkey (fun hmem => hli (List.mem_cons_of_mem h hmem))
      · exfalso
        exact hli (hkey h e hfh hpe ▸ List.mem_cons_self h t)

theorem filter_filterMap_unique {f : ℕ → Option RouteEntry} {p : RouteEntry → Bool}
    {li : ℕ} {e : RouteEntry} :
    ∀ {ws : List ℕ}, ws.Nodup →
      (∀ node e', f node = some e' → p e' = true → node = li) →
      f li = some e → p e = true → li ∈ ws →
      (ws.filterMap f).filter p = [e] := by
  intro ws
  induction ws with
  | nil =>
    intro _ _ _ _ hmem
    simp at hmem
  | cons h t ih =>
    intro hnodup hkey hfli hpe hmem
    rcases List.nodup_cons.mp hnodup with ⟨hht, hndt⟩
    by_cases hh : h = li
    · subst hh
      rw [List.filterMap_cons, hfli, List.filter_cons, if_pos (by simp [hpe])]
      rw [filter_filterMap_nil hkey hht]
    · rcases List.mem_cons.mp hmem with heq | hmem2
      · exact absurd heq.symm hh
      rw [List.filterMap_cons]
      rcases hfh : f h with _ | e'
      · exact ih hndt hkey hfli hpe hmem2
      · rw [List.filter_cons]
        rcases hpe' : p e' with _ | _
        · simp only [Bool.false_eq_true, if_neg, ite_false]
          exact ih hndt hkey hfli hpe hmem2
        · exact absurd (hkey h e' hfh hpe') hh

theorem sum_ite_le_one {l : List ℕ} (P : ℕ → Prop) [DecidablePred P] (hnd : l.Nodup)
    (huniq : ∀ a ∈ l, ∀ b ∈ l, P a → P b → a = b) :
    (l.map (fun a => if P a then 1 else 0)).sum ≤ 1 := by
  induction l with
  | nil => simp
  | cons h t ih =>
    rcases List.nodup_cons.mp hnd with ⟨hht, hndt⟩
    rw [List.map_cons, List.sum_cons]
    by_cases hP : P h
    · rw [if_pos hP]
      have hzero : ∀ a ∈ t, ¬ P a := by
        intro a ha hPa
        exact hht (huniq h (List.mem_cons_self h t) a (List.mem_cons_of_mem h ha) hP hPa ▸ ha)
      have : (t.map (fun a => if P a then 1 else 0)).sum = 0 := by
        rw [List.sum_eq_zero]
        intro x hx
        rcases List.mem_map.mp hx with ⟨a, ha, rfl⟩
        rw [if_neg (hzero a ha)]
      omega
    · rw [if_neg hP, zero_add]
      exact ih hndt (fun a ha b hb => huniq a (List.mem_cons_of_mem h ha) b
        (List.mem_cons_of_mem h hb))

theorem demand_callback_lt {R : Registry} {i : ℕ} (h : i < R.locations.length) :
    demand_callback R i =
      (match R.task_indices.find? (fun x => i == x.1) with
        | some x => x.2.duration
        | none => 0) := by
  unfold demand_callback
  rw [IndexToNode_lt h]

theorem emitDuration_le_demand {R : Registry} {i : ℕ}
    (h : i < R.locations.length) : emitDuration R i ≤ demand_callback R i := by
  rw [demand_callback_lt h]
  unfold emitDuration
  rcases hfind : R.task_indices.find? (fun x => i == x.1) with _ | x
  · rw [hfind]
  · rw [hfind]
    rcases hx : x.2 with ⟨j, s, loc, du⟩ | ⟨j, s, pl, dl, du⟩
    · simp [hx]
    · rcases hpd : R.pickup_delivery_indices.find? (fun pd => i == pd.1) with _ | y
      · simp [hx, hpd]
      · simp [hx, hpd]

end PD

namespace Sched

/-- Membership in the removed-assignment list of the scheduling script. -/
theorem removedPairsS_mem (tasks : List Task) (agents : List Agent) (li a : ℕ) :
    (li, a) ∈ removedPairs tasks agents ↔
      ∃ ti, ti < tasks.length ∧ li = agents.length + ti ∧ a < agents.length ∧
        ((agents.getD a default).skills.contains (tasks.getD ti default).skill &&
          (agents.getD a default).allowed_locations.contains
            (tasks.getD ti default).pincode) = false := by
  unfold removedPairs
  rw [foldl_append_eq_join]
  simp only [List.nil_append, List.mem_flatten, List.mem_map]
  constructor
  · rintro ⟨l, ⟨ti, hti, rfl⟩, hmem⟩
    rcases List.mem_map.mp hmem with ⟨b, hb, heq⟩
    rcases List.mem_filter.mp hb with ⟨hbr, hbs⟩
    have h1 := (Prod.mk.injEq _ _ _ _ ▸ heq).1
    have h2 := (Prod.mk.injEq _ _ _ _ ▸ heq).2
    rw [Bool.not_eq_true'] at hbs
    refine ⟨ti, List.mem_range.mp hti, h1.symm, ?_, ?_⟩
    · rw [← h2]
      exact List.mem_range.mp hbr
    · rw [← h2]
      exact hbs
  · rintro ⟨ti, hti, rfl, ha, hs⟩
    refine ⟨((List.range agents.length).filter (fun b =>
      !((agents.getD b default).skills.contains (tasks.getD ti default).skill &&
        (agents.getD b default).allowed_locations.contains
          (tasks.getD ti default).pincode))).map (fun b => (agents.length + ti, b)),
      ⟨ti, List.mem_range.mpr hti, rfl⟩, ?_⟩
    refine List.mem_map.mpr ⟨a, ?_, rfl⟩
    refine List.mem_filter.mpr ⟨List.mem_range.mpr ha, ?_⟩
    rw [Bool.not_eq_true']
    exact hs

/-- Error characterization of validate_input. -/
theorem validate_input_error_iff (tasks : List RawTask) (agents : List RawAgent) :
    (∃ e, validate_input tasks agents = Except.error e) ↔
      (tasks = [] ∨ agents = [] ∨
        (∃ t ∈ tasks, ∃ k ∈ required_task_keys, k ∉ t.keys) ∨
        (∃ ag ∈ agents, ∃ k ∈ required_agent_keys, k ∉ ag.keys)) := by
  constructor
  · rintro ⟨e, he⟩
    unfold validate_input at he
    split at he
    · rename_i hempty
      simp only [Bool.or_eq_true, List.isEmpty_iff] at hempty
      rcases hempty with h | h
      · exact Or.inl h
      · exact Or.inr (Or.inl h)
    · split at he
      · rename_i t0 hfind
        have hmem := List.mem_of_find?_eq_some hfind
        have hprop := List.find?_some hfind
        rw [Bool.not_eq_true'] at hprop
        rcases List.all_eq_false.mp hprop with ⟨k, hk, hkm⟩
        refine Or.inr (Or.inr (Or.inl ⟨t0, hmem, k, hk, ?_⟩))
        intro hin
        exact hkm (by simpa using hin)
      · split at he
        · rename_i a0 hfind2
          have hmem := List.mem_of_find?_eq_some hfind2
          have hprop := List.find?_some hfind2
          rw [Bool.not_eq_true'] at hprop
          rcases List.all_eq_false.mp hprop with ⟨k, hk, hkm⟩
          refine Or.inr (Or.inr (Or.inr ⟨a0, hmem, k, hk, ?_⟩))
          intro hin
          exact hkm (by simpa using hin)
        · exact absurd he (by simp)
  · intro hcase
    unfold validate_input
    split
    · exact ⟨_, rfl⟩
    · rename_i hempty
      split
      · exact ⟨_, rfl⟩
      · split
        · exact ⟨_, rfl⟩
        · rename_i optt hfind opta hfind2
          exfalso
          simp only [Bool.or_eq_true, List.isEmpty_iff, not_or] at hempty
          rcases hcase with h | h | ⟨t, htm, k, hk, hkm⟩ | ⟨ag, hagm, k, hk, hkm⟩
          · exact hempty.1 h
          · exact hempty.2 h
          · have hne := List.find?_eq_none.mp hfind t htm
            have hall : (required_task_keys.all fun k => t.keys.contains k) = true := by
              rcases hb : (required_task_keys.all fun k => t.keys.contains k) with _ | _
              · exact absurd (by rw [hb]; rfl) hne
              · rfl
            rw [List.all_eq_true] at hall
            exact hkm (by simpa using hall k hk)
          · have hne := List.find?_eq_none.mp hfind2 ag hagm
            have hall : (required_agent_keys.all fun k => ag.keys.contains k) = true := by
              rcases hb : (required_agent_keys.all fun k => ag.keys.contains k) with _ | _
              · exact absurd (by rw [hb]; rfl) hne
              · rfl
            rw [List.all_eq_true] at hall
            exact hkm (by simpa using hall k hk)

end Sched

theorem sum_ite_const {α : Type _} (l : List α) (q : α → Bool) (c : ℕ) :
    (l.map (fun x => if q x then c else 0)).sum = c * (l.filter q).length := by
  induction l with
  | nil => simp
  | cons h t ih =>
    by_cases hq : q h
    · simp only [List.map_cons, List.sum_cons, if_pos hq, List.filter_cons, hq, ite_true,
        List.length_cons, ih]
      ring
    · simp only [List.map_cons, List.sum_cons, if_neg hq, List.filter_cons, ih]
      simp [hq]

/-- Claim C9: solve_task_assignment raises a validation error exactly when the
task list or the agent list is empty or a record misses a required key, and
only a validation success reaches model construction. -/
theorem C9_validation_before_model (rawTasks : List Sched.RawTask)
    (rawAgents : List Sched.RawAgent) :
    ((∃ e, Sched.solve_task_assignment rawTasks rawAgents = Except.error e) ↔
      (rawTasks = [] ∨ rawAgents = [] ∨
        (∃ t ∈ rawTasks, ∃ k ∈ Sched.required_task_keys, k ∉ t.keys) ∨
        (∃ ag ∈ rawAgents, ∃ k ∈ Sched.required_agent_keys, k ∉ ag.keys))) ∧
    (∀ M, Sched.solve_task_assignment rawTasks rawAgents = Except.ok M →
      M = Sched.buildModel (rawTasks.map Sched.RawTask.payload)
        (rawAgents.map Sched.RawAgent.payload)) := by
  constructor
  · rw [← Sched.validate_input_error_iff rawTasks rawAgents]
    unfold Sched.solve_task_assignment
    rcases hv : Sched.validate_input rawTasks rawAgents with e | u
    · simp
    · simp
  · intro M hM
    unfold Sched.solve_task_assignment at hM
    rcases hv : Sched.validate_input rawTasks rawAgents with e | u
    · rw [hv] at hM
      simp at hM
    · rw [hv] at hM
      simpa using hM.symm

/-- Claim C3: eligibility filtering removes exactly the ineligible agents.  In
the scheduling variant a task node's removed agents are those missing the
skill or the pincode; in the pickup-delivery variant removal is a skill-only
test, applied to every task node, and a pickup node and its drop node are
removed for exactly the same agents. -/
theorem C3_eligibility_filtering :
    (∀ (tasks : List Sched.Task) (agents : List Sched.Agent) (ti a : ℕ),
      ti < tasks.length →
      ((agents.length + ti, a) ∈ Sched.removedPairs tasks agents ↔
        a < agents.length ∧
          ¬((tasks.getD ti default).skill ∈ (agents.getD a default).skills ∧
            (tasks.getD ti default).pincode ∈ (agents.getD a default).allowed_locations))) ∧
    (∀ (agents : List PD.Agent) (tasks : List PD.Task),
      ∀ x ∈ (PD.buildRegistry agents tasks).task_indices, ∀ a : ℕ,
        ((x.1, a) ∈ PD.removedPairs (PD.buildRegistry agents tasks) agents ↔
          a < agents.length ∧ x.2.skill ∉ (agents.getD a default).skills)) ∧
    (∀ (agents : List PD.Agent) (tasks : List PD.Task),
      ∀ y ∈ (PD.buildRegistry agents tasks).pickup_delivery_indices, ∀ a : ℕ,
        ((y.1, a) ∈ PD.removedPairs (PD.buildRegistry agents tasks) agents ↔
          (y.2, a) ∈ PD.removedPairs (PD.buildRegistry agents tasks) agents)) := by
  have hPD : ∀ (agents : List PD.Agent) (tasks : List PD.Task),
      ∀ x ∈ (PD.buildRegistry agents tasks).task_indices, ∀ a : ℕ,
        ((x.1, a) ∈ PD.removedPairs (PD.buildRegistry agents tasks) agents ↔
          a < agents.length ∧ x.2.skill ∉ (agents.getD a default).skills) := by
    intro agents tasks x hx a
    have hwf := PD.regWF_build agents tasks
    rw [PD.removedPairs_mem]
    constructor
    · rintro ⟨x', hx', hfst, ha, hs⟩
      have hxx : x' = x := PD.nodup_fst_inj hwf.ti_nodup hx' hx hfst
      subst hxx
      refine ⟨ha, ?_⟩
      simpa using hs
    · rintro ⟨ha, hs⟩
      exact ⟨x, hx, rfl, ha, by simpa using hs⟩
  refine ⟨?_, hPD, ?_⟩
  · intro tasks agents ti a hti
    rw [Sched.removedPairsS_mem]
    constructor
    · rintro ⟨ti', _, heq, ha, hs⟩
      have : ti = ti' := by omega
      subst this
      refine ⟨ha, ?_⟩
      simpa using hs
    · rintro ⟨ha, hs⟩
      exact ⟨ti, hti, rfl, ha, by simpa using hs⟩
  · intro agents tasks y hy a
    have hwf := PD.regWF_build agents tasks
    rcases hwf.pd_entries y hy with ⟨t, ht1, ht2, _⟩
    have h1 := hPD agents tasks (y.1, t) ht1 a
    have h2 := hPD agents tasks (y.2, t) ht2 a
    rw [h1, h2]

/-- Witness for C3 at concrete scheduling and pickup-delivery inputs. -/
theorem C3_eligibility_filtering_witness :
    (((1 : ℕ) + 0, 0) ∈ Sched.removedPairs Sched.exTasksC Sched.exAgentsC ↔
      0 < 1 ∧ ¬((Sched.exTasksC.getD 0 default).skill ∈
          (Sched.exAgentsC.getD 0 default).skills ∧
        (Sched.exTasksC.getD 0 default).pincode ∈
          (Sched.exAgentsC.getD 0 default).allowed_locations)) ∧
    (((1 : ℕ), 0) ∈ PD.removedPairs (PD.buildRegistry PD.exAgentsA PD.exTasksA)
        PD.exAgentsA ↔
      0 < 1 ∧ (PD.Task.pickup_delivery 1 "B" (2, 2) (3, 1) 50).skill ∉
        (PD.exAgentsA.getD 0 default).skills) := by
  have hmem : (1, PD.Task.pickup_delivery 1 "B" (2, 2) (3, 1) 50) ∈
      (PD.buildRegistry PD.exAgentsA PD.exTasksA).task_indices := by
    exact List.mem_cons_self _ _
  constructor
  · exact C3_eligibility_filtering.1 Sched.exTasksC Sched.exAgentsC 0 0 (by decide)
  · exact C3_eligibility_filtering.2.1 PD.exAgentsA PD.exTasksA
      (1, PD.Task.pickup_delivery 1 "B" (2, 2) (3, 1) 50) hmem 0

/-- Counterexample to claim C4: in the pickup-delivery script each node of a
pickup-delivery task receives its own singleton disjunction, no disjunction
covers both nodes of the task, and dropping the task pays the penalty twice
(2000), not once. -/
theorem C4_counterexample :
    PD.ValidSolution PD.exAgentsA PD.exTasksA PD.exNextA ∧
    PD.disjunctions (PD.buildRegistry PD.exAgentsA PD.exTasksA) =
      [([1], 1000), ([2], 1000)] ∧
    (1, 2) ∈ (PD.buildRegistry PD.exAgentsA PD.exTasksA).pickup_delivery_indices ∧
    (¬ ∃ dj ∈ PD.disjunctions (PD.buildRegistry PD.exAgentsA PD.exTasksA),
      1 ∈ dj.1 ∧ 2 ∈ dj.1) ∧
    PD.unassignedPenalty (PD.buildRegistry PD.exAgentsA PD.exTasksA) PD.exNextA = 2000 := by
  refine ⟨by decide, by decide, by decide, by decide, by decide⟩

/-- Claim C4 as amended: every task node gets its own singleton disjunction at
the fixed penalty (1000 in the pickup-delivery variant, 5000 in the scheduling
variant), the objective pays the penalty once per self-looped task node, and a
dropped pickup-delivery task therefore pays at least twice the penalty. -/
theorem C4_amended :
    (∀ (R : PD.Registry) (nextf : ℕ → ℕ),
      PD.unassignedPenalty R nextf =
        PD.penalty * ((R.task_indices.filter (fun x => nextf x.1 == x.1)).length)) ∧
    (∀ (R : PD.Registry), ∀ dj ∈ PD.disjunctions R, ∃ li, dj = ([li], PD.penalty)) ∧
    (∀ (m n : ℕ), ∀ dj ∈ Sched.disjunctions m n, ∃ li, dj = ([li], Sched.penalty)) ∧
    (∀ (agents : List PD.Agent) (tasks : List PD.Task) (nextf : ℕ → ℕ) (t : PD.Task)
      (p : ℕ), t ∈ tasks →
      PD.entriesOf (PD.buildRegistry agents tasks) t.id = [(p, t), (p + 1, t)] →
      nextf p = p → nextf (p + 1) = p + 1 →
      2 * PD.penalty ≤
        PD.unassignedPenalty (PD.buildRegistry agents tasks) nextf) := by
  have hsum : ∀ (R : PD.Registry) (nextf : ℕ → ℕ),
      PD.unassignedPenalty R nextf =
        PD.penalty * ((R.task_indices.filter (fun x => nextf x.1 == x.1)).length) := by
    intro R nextf
    unfold PD.unassignedPenalty PD.disjunctions
    rw [List.map_map]
    have hcong : (fun x : ℕ × PD.Task =>
        (fun d : List ℕ × ℕ => if d.1.all (fun z => nextf z == z) then d.2 else 0)
          (([x.1], PD.penalty))) =
        (fun x : ℕ × PD.Task => if (nextf x.1 == x.1 : Bool) then PD.penalty else 0) := by
      funext x
      simp [List.all_cons]
    rw [show ((fun d : List ℕ × ℕ => if d.1.all (fun z => nextf z == z) then d.2 else 0) ∘
        fun x : ℕ × PD.Task => ([x.1], PD.penalty)) =
        (fun x : ℕ × PD.Task => if (nextf x.1 == x.1 : Bool) then PD.penalty else 0) from
      hcong]
    exact sum_ite_const _ _ _
  refine ⟨hsum, ?_, ?_, ?_⟩
  · intro R dj hdj
    rcases List.mem_map.mp hdj with ⟨x, _, rfl⟩
    exact ⟨x.1, rfl⟩
  · intro m n dj hdj
    rcases List.mem_map.mp hdj with ⟨x, _, rfl⟩
    exact ⟨x, rfl⟩
  · intro agents tasks nextf t p _ hpe h1 h2
    rw [hsum]
    have hp1 : (p, t) ∈ PD.entriesOf (PD.buildRegistry agents tasks) t.id := by
      rw [hpe]
      exact List.mem_cons_self _ _
    have hp2 : (p + 1, t) ∈ PD.entriesOf (PD.buildRegistry agents tasks) t.id := by
      rw [hpe]
      exact List.mem_cons_of_mem _ (List.mem_cons_self _ _)
    have hm1 : ((p, t) : ℕ × PD.Task) ∈
        (PD.buildRegistry agents tasks).task_indices.filter
          (fun x => nextf x.1 == x.1) := by
      refine List.mem_filter.mpr ⟨PD.entriesOf_subset _ _ _ hp1, by simp [h1]⟩
    have hm2 : ((p + 1, t) : ℕ × PD.Task) ∈
        (PD.buildRegistry agents tasks).task_indices.filter
          (fun x => nextf x.1 == x.1) := by
      refine List.mem_filter.mpr ⟨PD.entriesOf_subset _ _ _ hp2, by simp [h2]⟩
    have hlen := two_le_length_of_mem_ne hm1 hm2 (by simp)
    calc 2 * PD.penalty = PD.penalty * 2 := by ring
      _ ≤ PD.penalty * ((PD.buildRegistry agents tasks).task_indices.filter
          (fun x => nextf x.1 == x.1)).length := Nat.mul_le_mul_left _ hlen

/-- Witness for C4 as amended: the dropped pickup-delivery task of the
concrete scenario pays at least 2000. -/
theorem C4_amended_witness :
    2 * PD.penalty ≤
      PD.unassignedPenalty (PD.buildRegistry PD.exAgentsA PD.exTasksA) PD.exNextA :=
  C4_amended.2.2.2 PD.exAgentsA PD.exTasksA PD.exNextA
    (PD.Task.pickup_delivery 1 "B" (2, 2) (3, 1) 50) 1
    (List.mem_cons_self _ _) rfl rfl rfl

/-- Witness for C9: the empty task list is rejected, and a fully-keyed input
reaches model construction. -/
theorem C9_validation_before_model_witness :
    (∃ e, Sched.solve_task_assignment [] [] = Except.error e) ∧
    (Sched.buildModel
        ([(⟨Sched.required_task_keys, ⟨5, "driver", (0, 180), 11, 20⟩⟩ :
            Sched.RawTask)].map Sched.RawTask.payload)
        ([(⟨Sched.required_agent_keys, ⟨0, ["driver"], (0, 0), 120, [11]⟩⟩ :
            Sched.RawAgent)].map Sched.RawAgent.payload) =
      Sched.buildModel
        ([(⟨Sched.required_task_keys, ⟨5, "driver", (0, 180), 11, 20⟩⟩ :
            Sched.RawTask)].map Sched.RawTask.payload)
        ([(⟨Sched.required_agent_keys, ⟨0, ["driver"], (0, 0), 120, [11]⟩⟩ :
            Sched.RawAgent)].map Sched.RawAgent.payload)) :=
  ⟨(C9_validation_before_model [] []).1.mpr (Or.inl rfl),
   (C9_validation_before_model
      [⟨Sched.required_task_keys, ⟨5, "driver", (0, 180), 11, 20⟩⟩]
      [⟨Sched.required_agent_keys, ⟨0, ["driver"], (0, 0), 120, [11]⟩⟩]).2 _ rfl⟩

namespace PD

/-- Counting helper: a pickup-delivery task whose two nodes both self-loop is
reported twice in the unassigned-task list. -/
theorem count_unassigned_two (R : Registry) (nextf : ℕ → ℕ) (t : Task) (p : ℕ)
    (hpe : entriesOf R t.id = [(p, t), (p + 1, t)])
    (h1 : nextf p = p) (h2 : nextf (p + 1) = p + 1) :
    (unassignedTasks R nextf).count t.id = 2 := by
  rw [unassignedTasks_eq]
  rw [show ((R.task_indices.filter (fun x => decide (nextf x.1 = x.1))).map
      (fun x => x.2.id)).count t.id =
    ((R.task_indices.filter (fun x => decide (nextf x.1 = x.1))).map
      (fun x => x.2.id)).countP (fun z => z == t.id) from rfl]
  rw [List.countP_map, List.countP_filter]
  have hswap : (R.task_indices.countP
      (fun x => ((fun z => z == t.id) ∘ fun x => x.2.id) x &&
        decide (nextf x.1 = x.1))) =
      (entriesOf R t.id).countP (fun x => decide (nextf x.1 = x.1)) := by
    unfold entriesOf
    rw [List.countP_filter]
    refine List.countP_congr ?_
    intro x _
    simp [Function.comp, Bool.and_comm]
  rw [hswap, hpe]
  simp [h1, h2]

/-- Counting helper: a single task is reported at most once unassigned. -/
theorem count_unassigned_single (R : Registry) (nextf : ℕ → ℕ) (t : Task) (p : ℕ)
    (hpe : entriesOf R t.id = [(p, t)]) :
    (unassignedTasks R nextf).count t.id ≤ 1 := by
  rw [unassignedTasks_eq]
  rw [show ((R.task_indices.filter (fun x => decide (nextf x.1 = x.1))).map
      (fun x => x.2.id)).count t.id =
    ((R.task_indices.filter (fun x => decide (nextf x.1 = x.1))).map
      (fun x => x.2.id)).countP (fun z => z == t.id) from rfl]
  rw [List.countP_map, List.countP_filter]
  have hswap : (R.task_indices.countP
      (fun x => ((fun z => z == t.id) ∘ fun x => x.2.id) x &&
        decide (nextf x.1 = x.1))) =
      (entriesOf R t.id).countP (fun x => decide (nextf x.1 = x.1)) := by
    unfold entriesOf
    rw [List.countP_filter]
    refine List.countP_congr ?_
    intro x _
    simp [Function.comp, Bool.and_comm]
  rw [hswap, hpe]
  by_cases h : nextf p = p <;> simp [h]

/-- Counting helper: a task with no entries is never reported unassigned. -/
theorem count_unassigned_none (R : Registry) (nextf : ℕ → ℕ) (tid : ℕ)
    (hpe : entriesOf R tid = []) :
    (unassignedTasks R nextf).count tid = 0 := by
  rw [unassignedTasks_eq]
  rw [show ((R.task_indices.filter (fun x => decide (nextf x.1 = x.1))).map
      (fun x => x.2.id)).count tid =
    ((R.task_indices.filter (fun x => decide (nextf x.1 = x.1))).map
      (fun x => x.2.id)).countP (fun z => z == tid) from rfl]
  rw [List.countP_map, List.countP_filter]
  have hswap : (R.task_indices.countP
      (fun x => ((fun z => z == tid) ∘ fun x => x.2.id) x &&
        decide (nextf x.1 = x.1))) =
      (entriesOf R tid).countP (fun x => decide (nextf x.1 = x.1)) := by
    unfold entriesOf
    rw [List.countP_filter]
    refine List.countP_congr ?_
    intro x _
    simp [Function.comp, Bool.and_comm]
  rw [hswap, hpe]
  rfl

end PD

/-- Counterexample to claim C5: in the concrete scenario the pickup-delivery
task is dropped, both its pickup node (index 1) and its drop node (index 2)
self-loop, and the decoder reports the task id once per node — the drop
node's status is independently reported, so the unassigned list is [1, 1]. -/
theorem C5_counterexample :
    PD.ValidSolution PD.exAgentsA PD.exTasksA PD.exNextA ∧
    PD.exNextA 1 = 1 ∧ PD.exNextA 2 = 2 ∧
    (1, 2) ∈ (PD.buildRegistry PD.exAgentsA PD.exTasksA).pickup_delivery_indices ∧
    PD.unassignedTasks (PD.buildRegistry PD.exAgentsA PD.exTasksA) PD.exNextA = [1, 1] := by
  refine ⟨by decide, by decide, by decide, by decide, by decide⟩

/-- Claim C5 as amended: a task id is reported unassigned exactly when one of
the task's nodes is left on a self-loop, the check running over every task
node, so an unassigned pickup-delivery task (both nodes self-looped) is
reported twice, once for the pickup node and once for the drop node. -/
theorem C5_amended :
    (∀ (agents : List PD.Agent) (tasks : List PD.Task) (nextf : ℕ → ℕ) (tid : ℕ),
      (tid ∈ PD.unassignedTasks (PD.buildRegistry agents tasks) nextf ↔
        ∃ x ∈ (PD.buildRegistry agents tasks).task_indices,
          x.2.id = tid ∧ nextf x.1 = x.1)) ∧
    (∀ (tasks : List Sched.Task) (agents : List Sched.Agent) (nextf : ℕ → ℕ) (tid : ℕ),
      (tid ∈ Sched.unassignedTasks tasks agents.length (Sched.numLoc tasks agents) nextf ↔
        ∃ ti, ti < tasks.length ∧ (tasks.getD ti default).id = tid ∧
          nextf (agents.length + ti) = agents.length + ti)) ∧
    (∀ (agents : List PD.Agent) (tasks : List PD.Task) (nextf : ℕ → ℕ) (t : PD.Task)
      (p : ℕ), PD.entriesOf (PD.buildRegistry agents tasks) t.id = [(p, t), (p + 1, t)] →
      nextf p = p → nextf (p + 1) = p + 1 →
      (PD.unassignedTasks (PD.buildRegistry agents tasks) nextf).count t.id = 2) := by
  refine ⟨?_, ?_, ?_⟩
  · intro agents tasks nextf tid
    rw [PD.unassignedTasks_eq]
    constructor
    · intro hmem
      rcases List.mem_map.mp hmem with ⟨x, hx, rfl⟩
      rcases List.mem_filter.mp hx with ⟨hx1, hx2⟩
      exact ⟨x, hx1, rfl, by simpa using hx2⟩
    · rintro ⟨x, hx, rfl, hself⟩
      exact List.mem_map.mpr ⟨x, List.mem_filter.mpr ⟨hx, by simpa using hself⟩, rfl⟩
  · intro tasks agents nextf tid
    unfold Sched.unassignedTasks
    constructor
    · intro hmem
      rcases List.mem_map.mp hmem with ⟨li, hli, rfl⟩
      rcases List.mem_filter.mp hli with ⟨hli1, hli2⟩
      rw [List.mem_range'_1] at hli1
      refine ⟨li - agents.length, ?_, ?_, ?_⟩
      · unfold Sched.numLoc at hli1
        omega
      · rfl
      · have : agents.length + (li - agents.length) = li := by omega
        rw [this]
        simpa using hli2
    · rintro ⟨ti, hti, hid, hself⟩
      refine List.mem_map.mpr ⟨agents.length + ti, ?_, ?_⟩
      · refine List.mem_filter.mpr ⟨?_, by simpa using hself⟩
        rw [List.mem_range'_1]
        unfold Sched.numLoc
        omega
      · rw [show agents.length + ti - agents.length = ti from by omega, hid]
  · intro agents tasks nextf t p hpe h1 h2
    exact PD.count_unassigned_two _ nextf t p hpe h1 h2

/-- Witness for C5 as amended, at the concrete dropped pickup-delivery
scenario. -/
theorem C5_amended_witness :
    (PD.unassignedTasks (PD.buildRegistry PD.exAgentsA PD.exTasksA) PD.exNextA).count 1 = 2 :=
  C5_amended.2.2 PD.exAgentsA PD.exTasksA PD.exNextA
    (PD.Task.pickup_delivery 1 "B" (2, 2) (3, 1) 50) 1 rfl rfl rfl

/-- Claim C10: the arc cost handed to the solver is the matrix entry truncated
with int(), so any arc shorter than one unit costs 0, while the decoder sums
the untruncated real entries; on a concrete instance the route's solver cost
(2) differs from its reported distance (3). -/
theorem C10_truncated_arc_cost :
    (∀ (locs : List PD.Coord) (n i j : ℕ),
      0 ≤ PD.dmE locs (IndexToNode n i) (IndexToNode n j) →
      PD.dmE locs (IndexToNode n i) (IndexToNode n j) < 1 →
      PD.distance_callback locs n i j = 0) ∧
    (∀ (locs : List (ℝ × ℝ)) (n i j : ℕ),
      0 ≤ Sched.dmH locs (IndexToNode n i) (IndexToNode n j) →
      Sched.dmH locs (IndexToNode n i) (IndexToNode n j) < 1 →
      Sched.distance_callback locs n i j = 0) ∧
    (PD.ValidSolution PD.exAgentsD PD.exTasksD PD.exNextD ∧
     PD.routeCost (PD.buildRegistry PD.exAgentsD PD.exTasksD).locations PD.exNextD
        (PD.numLocations PD.exAgentsD PD.exTasksD)
        (PD.walkOf PD.exAgentsD PD.exTasksD PD.exNextD 0) = 2 ∧
     (PD.pdResult PD.exAgentsD PD.exTasksD PD.exNextD 0).total_distance = 3 ∧
     ((2 : ℝ) ≠ 3)) := by
  have hfloor : ∀ x : ℝ, 0 ≤ x → x < 1 → intTrunc x = 0 := by
    intro x h0 h1
    unfold intTrunc
    rw [if_pos h0]
    rw [Int.floor_eq_zero_iff]
    exact ⟨h0, h1⟩
  have hd01 : PD.dmE [((0 : ℝ), (0 : ℝ)), ((0 : ℝ), 3 / 2)] 0 1 = 3 / 2 := by
    rw [dmE_eq _ 0 1 (by norm_num) (by norm_num)]
    show PD.euclidean_distance (0, 0) (0, 3 / 2) = 3 / 2
    unfold PD.euclidean_distance
    rw [show ((0 : ℝ) - 0) ^ 2 + ((0 : ℝ) - 3 / 2) ^ 2 = (3 / 2) ^ 2 by norm_num]
    exact Real.sqrt_sq (by norm_num)
  have hd10 : PD.dmE [((0 : ℝ), (0 : ℝ)), ((0 : ℝ), 3 / 2)] 1 0 = 3 / 2 := by
    rw [dmE_eq _ 1 0 (by norm_num) (by norm_num)]
    show PD.euclidean_distance (0, 3 / 2) (0, 0) = 3 / 2
    unfold PD.euclidean_distance
    rw [show ((0 : ℝ) - 0) ^ 2 + ((3 : ℝ) / 2 - 0) ^ 2 = (3 / 2) ^ 2 by norm_num]
    exact Real.sqrt_sq (by norm_num)
  have hlocs : (PD.buildRegistry PD.exAgentsD PD.exTasksD).locations =
      [((0 : ℝ), (0 : ℝ)), ((0 : ℝ), 3 / 2)] := rfl
  have hwalk : PD.walkOf PD.exAgentsD PD.exTasksD PD.exNextD 0 = [0, 1] := by decide
  have hn : PD.numLocations PD.exAgentsD PD.exTasksD = 2 := by decide
  have htrunc : intTrunc (3 / 2) = 1 := by
    unfold intTrunc
    rw [if_pos (by norm_num)]
    norm_num
  refine ⟨?_, ?_, by decide, ?_, ?_, by norm_num⟩
  · intro locs n i j h0 h1
    unfold PD.distance_callback
    exact hfloor _ h0 h1
  · intro locs n i j h0 h1
    unfold Sched.distance_callback
    exact hfloor _ h0 h1
  · unfold PD.routeCost
    rw [hwalk, hn, hlocs]
    simp only [List.map_cons, List.map_nil, List.sum_cons, List.sum_nil]
    unfold PD.distance_callback PD.exNextD
    rw [show IndexToNode 2 0 = 0 from rfl, show IndexToNode 2 (0 + 1) = 1 from rfl,
      show IndexToNode 2 (1 + 1) = 0 from rfl]
    rw [hd01, hd10, htrunc]
    norm_num
  · have hspec := (PD.decodePD_spec PD.exAgentsD PD.exTasksD PD.exNextD (by decide) 0
      (by decide)).2.2
    rw [hspec, hwalk, hn, hlocs]
    unfold PD.arcSumE PD.exNextD
    simp only [List.map_cons, List.map_nil, List.sum_cons, List.sum_nil]
    rw [show IndexToNode 2 0 = 0 from rfl, show IndexToNode 2 (0 + 1) = 1 from rfl,
      show IndexToNode 2 (1 + 1) = 0 from rfl]
    rw [hd01, hd10]
    norm_num

/-- Claim C2: both variants register a unary demand callback returning the
task duration at task nodes and 0 at agent nodes, and add an Availability
dimension with zero slack, per-agent capacities, and cumul fixed to start at
zero; consequently each agent's decoded total duration is bounded by its
availability. -/
theorem C2_availability_dimension :
    (∀ (agents : List PD.Agent) (tasks : List PD.Task),
      (∀ x ∈ (PD.buildRegistry agents tasks).task_indices,
        PD.demand_callback (PD.buildRegistry agents tasks) x.1 = x.2.duration) ∧
      (∀ a, a < agents.length →
        PD.demand_callback (PD.buildRegistry agents tasks) a = 0)) ∧
    (∀ (tasks : List Sched.Task) (agents : List Sched.Agent),
      (∀ ti, ti < tasks.length →
        Sched.demand_callback tasks agents.length (Sched.numLoc tasks agents)
          (agents.length + ti) = (tasks.getD ti default).duration) ∧
      (∀ a, a < agents.length →
        Sched.demand_callback tasks agents.length (Sched.numLoc tasks agents) a = 0)) ∧
    (∀ agents : List PD.Agent,
      (PD.availabilityDimension agents).slack_max = 0 ∧
      (PD.availabilityDimension agents).fix_start_cumul_to_zero = true ∧
      (PD.availabilityDimension agents).vehicle_capacities =
        agents.map PD.Agent.availability) ∧
    (∀ (tasks : List Sched.Task) (agents : List Sched.Agent),
      (Sched.buildModel tasks agents).capacity.slack_max = 0 ∧
      (Sched.buildModel tasks agents).capacity.fix_start_cumul_to_zero = true ∧
      (Sched.buildModel tasks agents).capacity.vehicle_capacities =
        agents.map Sched.Agent.availability) ∧
    (∀ (agents : List PD.Agent) (tasks : List PD.Task) (nextf : ℕ → ℕ),
      PD.ValidSolution agents tasks nextf → ∀ a, a < agents.length →
      (PD.pdResult agents tasks nextf a).total_duration ≤
        (agents.getD a default).availability) ∧
    (∀ (tasks : List Sched.Task) (agents : List Sched.Agent) (nextf : ℕ → ℕ),
      Sched.ValidSolutionS tasks agents nextf → ∀ a, a < agents.length →
      (Sched.schedResult tasks agents nextf a).total_duration ≤
        (agents.getD a default).availability) := by
  refine ⟨?_, ?_, ?_, ?_, ?_, ?_⟩
  · intro agents tasks
    have hwf := PD.regWF_build agents tasks
    constructor
    · intro x hx
      have hlt : x.1 < (PD.buildRegistry agents tasks).locations.length :=
        hwf.ti_lt x hx
      rw [PD.demand_callback_lt hlt]
      rw [PD.find?_eq_of_mem_nodup hwf.ti_nodup hx]
    · intro a ha
      have hlt : a < (PD.buildRegistry agents tasks).locations.length :=
        lt_of_lt_of_le ha hwf.locs_ge
      rw [PD.demand_callback_lt hlt]
      have hnone : (PD.buildRegistry agents tasks).task_indices.find?
          (fun y => a == y.1) = none := by
        rw [List.find?_eq_none]
        intro y hy
        have := hwf.ti_ge y hy
        simp only [beq_iff_eq]
        omega
      rw [hnone]
  · intro tasks agents
    constructor
    · intro ti hti
      unfold Sched.demand_callback
      rw [IndexToNode_lt (show agents.length + ti < Sched.numLoc tasks agents by
        unfold Sched.numLoc; omega)]
      rw [if_pos (by omega)]
      rw [show agents.length + ti - agents.length = ti by omega]
    · intro a ha
      unfold Sched.demand_callback
      rw [IndexToNode_lt (show a < Sched.numLoc tasks agents by
        unfold Sched.numLoc; omega)]
      rw [if_neg (by omega)]
  · intro agents
    exact ⟨rfl, rfl, rfl⟩
  · intro tasks agents
    exact ⟨rfl, rfl, rfl⟩
  · intro agents tasks nextf hVS a ha
    have hdur := (PD.decodePD_spec agents tasks nextf hVS a ha).2.1
    rw [hdur]
    have hcap := hVS.2.2.2.2.2.2 a ha
    refine le_trans ?_ hcap
    apply List.sum_le_sum
    intro x hx
    have hxlt : x < PD.numLocations agents tasks := mem_walkIdx_lt hx
    exact PD.emitDuration_le_demand hxlt
  · intro tasks agents nextf hVS a ha
    have hcomp := Sched.loopS_components tasks (Sched.locationsOf tasks agents)
      agents.length (Sched.numLoc tasks agents) nextf
      (Sched.numLoc tasks agents + 1) a ⟨[], 0, 0⟩
    have hres : (Sched.schedResult tasks agents nextf a).total_duration =
        ((Sched.walkOfS tasks agents nextf a).map (fun x =>
          if agents.length ≤ x then
            (tasks.getD (x - agents.length) default).duration else 0)).sum := by
      unfold Sched.schedResult Sched.walkOfS
      rw [hcomp.2.1]
      simp
    rw [hres]
    have hcap := hVS.2.2.2.2.2 a ha
    refine le_trans (le_of_eq ?_) hcap
    congr 1
    apply List.map_congr_left
    intro x hx
    have hxlt : x < Sched.numLoc tasks agents := mem_walkIdx_lt hx
    unfold Sched.demand_callback
    rw [IndexToNode_lt hxlt]

theorem C10_truncated_arc_cost_witness :
    PD.distance_callback [((0 : ℝ), (0 : ℝ)), ((0 : ℝ), 3 / 4)] 2 0 1 = 0 := by
  have hd : PD.dmE [((0 : ℝ), (0 : ℝ)), ((0 : ℝ), 3 / 4)]
      (IndexToNode 2 0) (IndexToNode 2 1) = 3 / 4 := by
    rw [show IndexToNode 2 0 = 0 from rfl, show IndexToNode 2 1 = 1 from rfl]
    rw [dmE_eq _ 0 1 (by norm_num) (by norm_num)]
    show PD.euclidean_distance (0, 0) (0, 3 / 4) = 3 / 4
    unfold PD.euclidean_distance
    rw [show ((0 : ℝ) - 0) ^ 2 + ((0 : ℝ) - 3 / 4) ^ 2 = (3 / 4) ^ 2 by norm_num]
    exact Real.sqrt_sq (by norm_num)
  exact C10_truncated_arc_cost.1 _ 2 0 1 (by rw [hd]; norm_num) (by rw [hd]; norm_num)

theorem C2_availability_dimension_witness :
    (PD.pdResult PD.exAgentsB PD.exTasksB PD.exNextB 0).total_duration ≤
      (PD.exAgentsB.getD 0 default).availability ∧
    (Sched.schedResult Sched.exTasksC Sched.exAgentsC Sched.exNextC 0).total_duration ≤
      (Sched.exAgentsC.getD 0 default).availability :=
  ⟨C2_availability_dimension.2.2.2.2.1 PD.exAgentsB PD.exTasksB PD.exNextB
      (by decide) 0 (by decide),
   C2_availability_dimension.2.2.2.2.2 Sched.exTasksC Sched.exAgentsC Sched.exNextC
      (by decide) 0 (by decide)⟩

/-- Claim C6 counterexample: on the concrete scheduling scenario the decoded
distance is the single outbound arc only; the return arc from the task back to
the agent is provably non-zero, yet it is never added, because the scheduling
decoder skips the arc into the vehicle end. -/
theorem C6_counterexample :
    Sched.ValidSolutionS Sched.exTasksC Sched.exAgentsC Sched.exNextC ∧
    (Sched.schedResult Sched.exTasksC Sched.exAgentsC Sched.exNextC 0).total_distance =
      Sched.dmH (Sched.locationsOf Sched.exTasksC Sched.exAgentsC) 0 1 ∧
    Sched.dmH (Sched.locationsOf Sched.exTasksC Sched.exAgentsC) 1 0 ≠ 0 ∧
    (Sched.schedResult Sched.exTasksC Sched.exAgentsC Sched.exNextC 0).total_distance ≠
      Sched.dmH (Sched.locationsOf Sched.exTasksC Sched.exAgentsC) 0 1 +
        Sched.dmH (Sched.locationsOf Sched.exTasksC Sched.exAgentsC) 1 0 := by
  have hlocs : Sched.locationsOf Sched.exTasksC Sched.exAgentsC =
      [((0 : ℝ), (0 : ℝ)), ((0 : ℝ), (180 : ℝ))] := rfl
  have hA : Sched.hav_a ((0 : ℝ), (180 : ℝ)) ((0 : ℝ), (0 : ℝ)) = 1 := by
    show Real.sin (Sched.radians ((0 : ℝ) - 0) / 2) ^ 2 +
      Real.cos (Sched.radians (0 : ℝ)) * Real.cos (Sched.radians (0 : ℝ)) *
        Real.sin (Sched.radians ((0 : ℝ) - 180) / 2) ^ 2 = 1
    rw [show Sched.radians ((0 : ℝ) - 0) = 0 by unfold Sched.radians; ring,
      show Sched.radians ((0 : ℝ) - 180) = -Real.pi by unfold Sched.radians; ring,
      show Sched.radians (0 : ℝ) = 0 by unfold Sched.radians; ring]
    rw [show (0 : ℝ) / 2 = 0 by norm_num, show -Real.pi / 2 = -(Real.pi / 2) by ring]
    rw [Real.sin_zero, Real.cos_zero, Real.sin_neg, Real.sin_pi_div_two]
    norm_num
  have hd10 : Sched.dmH [((0 : ℝ), (0 : ℝ)), ((0 : ℝ), (180 : ℝ))] 1 0 =
      6371 * Real.pi := by
    rw [dmH_eq _ 1 0 (by norm_num) (by norm_num)]
    show Sched.haversine_distance ((0 : ℝ), (180 : ℝ)) ((0 : ℝ), (0 : ℝ)) = 6371 * Real.pi
    rw [haversine_eq_hav_a, hA]
    rw [show (1 : ℝ) - 1 = 0 by norm_num]
    rw [Real.sqrt_one, Real.sqrt_zero]
    have hat : Sched.atan2 1 0 = Real.pi / 2 := by
      unfold Sched.atan2
      rw [if_neg (lt_irrefl 0), if_neg (lt_irrefl 0), if_pos one_pos]
    rw [hat]
    ring
  have hne0 : Sched.dmH (Sched.locationsOf Sched.exTasksC Sched.exAgentsC) 1 0 ≠ 0 := by
    rw [hlocs, hd10]
    positivity
  have hn : Sched.numLoc Sched.exTasksC Sched.exAgentsC = 2 := rfl
  have hcomp := Sched.loopS_components Sched.exTasksC
    (Sched.locationsOf Sched.exTasksC Sched.exAgentsC) Sched.exAgentsC.length
    (Sched.numLoc Sched.exTasksC Sched.exAgentsC) Sched.exNextC
    (Sched.numLoc Sched.exTasksC Sched.exAgentsC + 1) 0 ⟨[], 0, 0⟩
  have hdist : (Sched.schedResult Sched.exTasksC Sched.exAgentsC Sched.exNextC 0
      ).total_distance =
      Sched.dmH (Sched.locationsOf Sched.exTasksC Sched.exAgentsC) 0 1 := by
    unfold Sched.schedResult
    rw [hcomp.2.2]
    rw [(by decide : walkIdx Sched.exNextC (Sched.numLoc Sched.exTasksC Sched.exAgentsC)
      (Sched.numLoc Sched.exTasksC Sched.exAgentsC + 1) 0 = [0, 1])]
    simp only [List.map_cons, List.map_nil, List.sum_cons, List.sum_nil]
    rw [hn]
    rw [show Sched.exNextC 0 = 1 from rfl, show Sched.exNextC 1 = 2 from rfl]
    rw [if_neg (by norm_num : ¬ (2 : ℕ) ≤ 1), if_pos (le_refl 2)]
    rw [show IndexToNode 2 1 = 1 from rfl]
    ring
  refine ⟨by decide, hdist, hne0, ?_⟩
  rw [hdist]
  intro h
  apply hne0
  linarith

/-- Claim C6 amended: under the solver contract the pickup-delivery decoder's
distance is the sum over consecutive walk pairs plus the final return arc into
the agent's own start node (every traversed arc is counted), while the
scheduling decoder's distance is the consecutive-pair sum only (the final arc
into the vehicle end is always excluded). -/
theorem C6_amended :
    (∀ (agents : List PD.Agent) (tasks : List PD.Task) (nextf : ℕ → ℕ),
      PD.ValidSolution agents tasks nextf → ∀ a, a < agents.length →
      (PD.pdResult agents tasks nextf a).total_distance =
        PD.zipArcsE (PD.buildRegistry agents tasks).locations
          (PD.walkOf agents tasks nextf a) +
        PD.dmE (PD.buildRegistry agents tasks).locations
          ((PD.walkOf agents tasks nextf a).getLastD 0) a) ∧
    (∀ (tasks : List Sched.Task) (agents : List Sched.Agent) (nextf : ℕ → ℕ),
      Sched.ValidSolutionS tasks agents nextf → ∀ a, a < agents.length →
      (Sched.schedResult tasks agents nextf a).total_distance =
        Sched.zipArcsH (Sched.locationsOf tasks agents)
          (Sched.walkOfS tasks agents nextf a)) := by
  constructor
  · intro agents tasks nextf hVS a ha
    have hwf := PD.regWF_build agents tasks
    have han : a < PD.numLocations agents tasks := lt_of_lt_of_le ha hwf.locs_ge
    have hdist := (PD.decodePD_spec agents tasks nextf hVS a ha).2.2
    have hnd := hVS.1 a ha
    have hlen : (PD.walkOf agents tasks nextf a).length ≤ PD.numLocations agents tasks :=
      nodup_lt_length_le _ _ hnd (fun x hx => mem_walkIdx_lt hx)
    have hdecomp := PD.arcSumE_decomp (PD.buildRegistry agents tasks).locations nextf
      (PD.numLocations agents tasks) (PD.numLocations agents tasks + 1) a
      (Nat.lt_succ_of_le hlen)
    rw [show walkIdx nextf (PD.numLocations agents tasks)
      (PD.numLocations agents tasks + 1) a = PD.walkOf agents tasks nextf a from rfl]
      at hdecomp
    have hne : PD.walkOf agents tasks nextf a ≠ [] := by
      unfold PD.walkOf
      rw [walkIdx_step (show ¬ PD.numLocations agents tasks ≤ a by omega)]
      simp
    rw [hdist, hdecomp, if_neg hne]
    have hstop : nextf^[(PD.walkOf agents tasks nextf a).length] a =
        PD.numLocations agents tasks + a := hVS.2.2.1 a ha
    rw [hstop, IndexToNode_end (Nat.le_add_right _ _)]
  · intro tasks agents nextf hVS a ha
    have hcomp := Sched.loopS_components tasks (Sched.locationsOf tasks agents)
      agents.length (Sched.numLoc tasks agents) nextf
      (Sched.numLoc tasks agents + 1) a ⟨[], 0, 0⟩
    have hres : (Sched.schedResult tasks agents nextf a).total_distance =
        ((Sched.walkOfS tasks agents nextf a).map (fun x =>
          if Sched.numLoc tasks agents ≤ nextf x then 0
          else Sched.dmH (Sched.locationsOf tasks agents) x
            (IndexToNode (Sched.numLoc tasks agents) (nextf x)))).sum := by
      unfold Sched.schedResult Sched.walkOfS
      rw [hcomp.2.2]
      simp
    have hnd := hVS.1 a ha
    have hlen : (Sched.walkOfS tasks agents nextf a).length ≤ Sched.numLoc tasks agents :=
      nodup_lt_length_le _ _ hnd (fun x hx => mem_walkIdx_lt hx)
    have hlen2 : (walkIdx nextf (Sched.numLoc tasks agents)
        (Sched.numLoc tasks agents + 1) a).length < Sched.numLoc tasks agents + 1 :=
      Nat.lt_succ_of_le hlen
    have hzip := Sched.guarded_sum_eq_zip (Sched.locationsOf tasks agents) nextf
      (Sched.numLoc tasks agents) (Sched.numLoc tasks agents + 1) a hlen2
    rw [hres]
    rw [show Sched.walkOfS tasks agents nextf a = walkIdx nextf
      (Sched.numLoc tasks agents) (Sched.numLoc tasks agents + 1) a from rfl]
    rw [hzip]

theorem C6_amended_witness :
    (PD.pdResult PD.exAgentsB PD.exTasksB PD.exNextB 0).total_distance =
      PD.zipArcsE (PD.buildRegistry PD.exAgentsB PD.exTasksB).locations
        (PD.walkOf PD.exAgentsB PD.exTasksB PD.exNextB 0) +
      PD.dmE (PD.buildRegistry PD.exAgentsB PD.exTasksB).locations
        ((PD.walkOf PD.exAgentsB PD.exTasksB PD.exNextB 0).getLastD 0) 0 ∧
    (Sched.schedResult Sched.exTasksC Sched.exAgentsC Sched.exNextC 0).total_distance =
      Sched.zipArcsH (Sched.locationsOf Sched.exTasksC Sched.exAgentsC)
        (Sched.walkOfS Sched.exTasksC Sched.exAgentsC Sched.exNextC 0) :=
  ⟨C6_amended.1 PD.exAgentsB PD.exTasksB PD.exNextB (by decide) 0 (by decide),
   C6_amended.2 Sched.exTasksC Sched.exAgentsC Sched.exNextC (by decide) 0 (by decide)⟩

/-- Claim C7: an assigned pickup-delivery task is reported as a single logical
route entry and its duration is added exactly once, at the pickup node: of the
task's two nodes only the pickup emits an entry and the task duration, the
drop emits nothing and adds 0, and the decoded route holds exactly one entry
with the task's id. -/
theorem C7_pd_single_entry (agents : List PD.Agent) (tasks : List PD.Task)
    (nextf : ℕ → ℕ) (hVS : PD.ValidSolution agents tasks nextf)
    (hid : (tasks.map PD.Task.id).Nodup) :
    ∀ t ∈ tasks, t.isPD = true →
    ∃ p, (p, p + 1) ∈ (PD.buildRegistry agents tasks).pickup_delivery_indices ∧
      PD.emitEntry (PD.buildRegistry agents tasks) p =
        some (PD.RouteEntry.taskPD t.id) ∧
      PD.emitEntry (PD.buildRegistry agents tasks) (p + 1) = none ∧
      PD.emitDuration (PD.buildRegistry agents tasks) p = t.duration ∧
      PD.emitDuration (PD.buildRegistry agents tasks) (p + 1) = 0 ∧
      ∀ a, a < agents.length → p ∈ PD.walkOf agents tasks nextf a →
        (PD.pdResult agents tasks nextf a).route.filter
          (fun e => e.eid == t.id) = [PD.RouteEntry.taskPD t.id] := by
  intro t ht hpd
  have hwf := PD.regWF_build agents tasks
  obtain ⟨p, hppd, hentries⟩ := (PD.entriesOf_build agents tasks t ht hid).1 hpd
  have hpe : (p, t) ∈ PD.entriesOf (PD.buildRegistry agents tasks) t.id := by
    rw [hentries]
    exact List.mem_cons_self _ _
  have hde : (p + 1, t) ∈ PD.entriesOf (PD.buildRegistry agents tasks) t.id := by
    rw [hentries]
    exact List.mem_cons_of_mem _ (List.mem_cons_self _ _)
  have hpti : (p, t) ∈ (PD.buildRegistry agents tasks).task_indices :=
    PD.entriesOf_subset _ _ _ hpe
  have hdti : (p + 1, t) ∈ (PD.buildRegistry agents tasks).task_indices :=
    PD.entriesOf_subset _ _ _ hde
  have hfindp := PD.find?_eq_of_mem_nodup hwf.ti_nodup hpti
  have hfindd := PD.find?_eq_of_mem_nodup hwf.ti_nodup hdti
  have hfindpd := PD.find?_pd_eq_of_mem_nodup hwf.pd_fst_nodup hppd
  have hpdnone := PD.find?_pd_none_at_drop hwf hppd
  rcases t with ⟨i, s, loc, du⟩ | ⟨i, s, pl, dl, du⟩
  · simp [PD.Task.isPD] at hpd
  · have hemitp := PD.emitEntry_pickup hfindp rfl hfindpd
    have hdurp := PD.emitDuration_pickup hfindp rfl hfindpd
    have hemitd := PD.emitEntry_drop hfindd rfl hpdnone
    have hdurd := PD.emitDuration_drop hfindd rfl hpdnone
    refine ⟨p, hppd, hemitp, hemitd, hdurp, hdurd, ?_⟩
    intro a ha hmem
    have hroute := (PD.decodePD_spec agents tasks nextf hVS a ha).1
    rw [hroute]
    have hkey : ∀ node e, PD.emitEntry (PD.buildRegistry agents tasks) node = some e →
        (e.eid == (PD.Task.pickup_delivery i s pl dl du).id) = true → node = p := by
      intro node e hemit hpeid
      obtain ⟨x, hfind, hxid⟩ := PD.emitEntry_some_elim hemit
      have hxmem : x ∈ (PD.buildRegistry agents tasks).task_indices :=
        List.mem_of_find?_eq_some hfind
      have hxnode : node = x.1 := by
        have hb := List.find?_some hfind
        simpa using hb
      have hxentry : x ∈ PD.entriesOf (PD.buildRegistry agents tasks)
          (PD.Task.pickup_delivery i s pl dl du).id :=
        (PD.mem_entriesOf _ _ _).mpr ⟨hxmem, by
          rw [hxid]
          exact beq_iff_eq.mp hpeid⟩
      rw [hentries] at hxentry
      rcases List.mem_cons.mp hxentry with hx1 | hx2
      · rw [hxnode, hx1]
      · rcases List.mem_cons.mp hx2 with hx2 | hx3
        · exfalso
          have hnode : node = p + 1 := by rw [hxnode, hx2]
          rw [hnode, hemitd] at hemit
          exact Option.noConfusion hemit
        · simp at hx3
    exact PD.filter_filterMap_unique (hVS.1 a ha) hkey hemitp (by simp [PD.RouteEntry.eid]) hmem

theorem C7_pd_single_entry_witness :
    ∃ p, (p, p + 1) ∈ (PD.buildRegistry PD.exAgentsB PD.exTasksB).pickup_delivery_indices ∧
      PD.emitEntry (PD.buildRegistry PD.exAgentsB PD.exTasksB) p =
        some (PD.RouteEntry.taskPD 1) ∧
      PD.emitEntry (PD.buildRegistry PD.exAgentsB PD.exTasksB) (p + 1) = none ∧
      PD.emitDuration (PD.buildRegistry PD.exAgentsB PD.exTasksB) p = 50 ∧
      PD.emitDuration (PD.buildRegistry PD.exAgentsB PD.exTasksB) (p + 1) = 0 ∧
      ∀ a, a < PD.exAgentsB.length →
        p ∈ PD.walkOf PD.exAgentsB PD.exTasksB PD.exNextB a →
        (PD.pdResult PD.exAgentsB PD.exTasksB PD.exNextB a).route.filter
          (fun e => e.eid == 1) = [PD.RouteEntry.taskPD 1] :=
  C7_pd_single_entry PD.exAgentsB PD.exTasksB PD.exNextB (by decide) (by decide)
    (PD.Task.pickup_delivery 1 "B" (2, 2) (3, 1) 50) (List.mem_cons_self _ _) rfl

/-- The unassigned-report count of an id is the number of the id's node
entries left on a self-loop. -/
theorem PD.count_unassigned_eq (R : PD.Registry) (nextf : ℕ → ℕ) (tid : ℕ) :
    (PD.unassignedTasks R nextf).count tid =
      (PD.entriesOf R tid).countP (fun x => decide (nextf x.1 = x.1)) := by
  rw [PD.unassignedTasks_eq]
  rw [show ((R.task_indices.filter (fun x => decide (nextf x.1 = x.1))).map
      (fun x => x.2.id)).count tid =
    ((R.task_indices.filter (fun x => decide (nextf x.1 = x.1))).map
      (fun x => x.2.id)).countP (fun z => z == tid) from rfl]
  rw [List.countP_map, List.countP_filter]
  unfold PD.entriesOf
  rw [List.countP_filter]
  refine List.countP_congr ?_
  intro x _
  simp [Function.comp, Bool.and_comm]

/-- A drop node emits no route entry. -/
theorem PD.emit_drop_none (agents : List PD.Agent) (tasks : List PD.Task)
    {t : PD.Task} {p : ℕ}
    (hppd : (p, p + 1) ∈ (PD.buildRegistry agents tasks).pickup_delivery_indices)
    (hti : (p + 1, t) ∈ (PD.buildRegistry agents tasks).task_indices)
    (hpd : t.isPD = true) :
    PD.emitEntry (PD.buildRegistry agents tasks) (p + 1) = none := by
  have hwf := PD.regWF_build agents tasks
  have hfindd := PD.find?_eq_of_mem_nodup hwf.ti_nodup hti
  have hpdnone := PD.find?_pd_none_at_drop hwf hppd
  rcases t with ⟨i, s, loc, du⟩ | ⟨i, s, pl, dl, du⟩
  · simp [PD.Task.isPD] at hpd
  · exact PD.emitEntry_drop hfindd rfl hpdnone

/-- Node-entry structure at any inhabited id: the id belongs to a unique task
and its entries are the single node, or the pickup-drop pair with the drop
emitting nothing. -/
theorem PD.entries_structure (agents : List PD.Agent) (tasks : List PD.Task)
    (hid : (tasks.map PD.Task.id).Nodup) {tid : ℕ} {x : ℕ × PD.Task}
    (hx : x ∈ PD.entriesOf (PD.buildRegistry agents tasks) tid) :
    ∃ p t, t ∈ tasks ∧ t.id = tid ∧
      ((PD.entriesOf (PD.buildRegistry agents tasks) tid = [(p, t)] ∧
        t.isPD = false) ∨
       (PD.entriesOf (PD.buildRegistry agents tasks) tid = [(p, t), (p + 1, t)] ∧
        t.isPD = true ∧
        (p, p + 1) ∈ (PD.buildRegistry agents tasks).pickup_delivery_indices ∧
        PD.emitEntry (PD.buildRegistry agents tasks) (p + 1) = none)) := by
  have ht : x.2 ∈ tasks :=
    PD.ti_snd_mem agents tasks x (PD.entriesOf_subset _ _ _ hx)
  have htid : x.2.id = tid := ((PD.mem_entriesOf _ _ _).mp hx).2
  have hEB := PD.entriesOf_build agents tasks x.2 ht hid
  rcases hpdc : x.2.isPD with _ | _
  · obtain ⟨p, hp⟩ := hEB.2 hpdc
    rw [htid] at hp
    exact ⟨p, x.2, ht, htid, Or.inl ⟨hp, hpdc⟩⟩
  · obtain ⟨p, hppd, hp⟩ := hEB.1 hpdc
    rw [htid] at hp
    have hdti : (p + 1, x.2) ∈ (PD.buildRegistry agents tasks).task_indices := by
      refine PD.entriesOf_subset _ _ _ (show (p + 1, x.2) ∈
        PD.entriesOf (PD.buildRegistry agents tasks) tid from ?_)
      rw [hp]
      exact List.mem_cons_of_mem _ (List.mem_cons_self _ _)
    exact ⟨p, x.2, ht, htid, Or.inr ⟨hp, hpdc, hppd,
      PD.emit_drop_none agents tasks hppd hdti hpdc⟩⟩

/-- A non-empty id filter on a decoded route comes from an emitting node of
that id on the agent walk. -/
theorem PD.route_emitter (agents : List PD.Agent) (tasks : List PD.Task)
    (nextf : ℕ → ℕ) (hVS : PD.ValidSolution agents tasks nextf) {tid a : ℕ}
    (ha : a < agents.length)
    (hne : ((PD.pdResult agents tasks nextf a).route.filter
      (fun e => e.eid == tid)) ≠ []) :
    ∃ x ∈ PD.entriesOf (PD.buildRegistry agents tasks) tid,
      x.1 ∈ PD.walkOf agents tasks nextf a ∧
      PD.emitEntry (PD.buildRegistry agents tasks) x.1 ≠ none := by
  obtain ⟨e, he⟩ := List.exists_mem_of_ne_nil _ hne
  rcases List.mem_filter.mp he with ⟨her, hep⟩
  rw [(PD.decodePD_spec agents tasks nextf hVS a ha).1] at her
  rcases List.mem_filterMap.mp her with ⟨node, hnode, hemit⟩
  obtain ⟨x, hfind, hxid⟩ := PD.emitEntry_some_elim hemit
  have hxmem : x ∈ (PD.buildRegistry agents tasks).task_indices :=
    List.mem_of_find?_eq_some hfind
  have hxnode : node = x.1 := by
    have hb := List.find?_some hfind
    simpa using hb
  refine ⟨x, (PD.mem_entriesOf _ _ _).mpr ⟨hxmem, by
    rw [hxid]
    exact beq_iff_eq.mp hep⟩, ?_, ?_⟩
  · rw [← hxnode]
    exact hnode
  · rw [← hxnode, hemit]
    simp

/-- In a duplicate-free id list, the task id determines the task index. -/
theorem Sched.id_index_inj (tasks : List Sched.Task)
    (hid : (tasks.map Sched.Task.id).Nodup) {i j : ℕ} (hi : i < tasks.length)
    (hj : j < tasks.length)
    (heq : (tasks.getD i default).id = (tasks.getD j default).id) : i = j := by
  rw [List.getD_eq_getElem _ _ hi, List.getD_eq_getElem _ _ hj] at heq
  have hget : (tasks.map Sched.Task.id).get ⟨i, by simpa using hi⟩ =
      (tasks.map Sched.Task.id).get ⟨j, by simpa using hj⟩ := by
    simp only [List.get_eq_getElem, List.getElem_map]
    exact heq
  have h2 := List.nodup_iff_injective_get.mp hid hget
  exact congrArg Fin.val h2

/-- Counterexample to claim C1: in the concrete scenario the pickup-delivery
task is dropped by the only agent, its id appears in no route, yet the
unassigned list counts the id twice — so a task id can appear more than once
across all routes and the unassigned list combined. -/
theorem C1_counterexample :
    PD.ValidSolution PD.exAgentsA PD.exTasksA PD.exNextA ∧
    PD.exAgentsA.length = 1 ∧
    (PD.pdResult PD.exAgentsA PD.exTasksA PD.exNextA 0).route = [] ∧
    (PD.unassignedTasks (PD.buildRegistry PD.exAgentsA PD.exTasksA)
      PD.exNextA).count 1 = 2 := by
  exact ⟨by decide, rfl, by decide, by decide⟩

/-- Claim C1 as amended: under the solver contract and duplicate-free task
ids, a task id appears in at most one agent's route, an id appearing in some
route is never reported unassigned, and a single task is reported unassigned
at most once — but a dropped pickup-delivery task is reported twice (its
count in the unassigned list is 0 or 2, once per node); the scheduling
variant satisfies the original claim. -/
theorem C1_amended :
    (∀ (agents : List PD.Agent) (tasks : List PD.Task) (nextf : ℕ → ℕ),
      PD.ValidSolution agents tasks nextf → (tasks.map PD.Task.id).Nodup →
      (∀ tid, ((List.range agents.length).map (fun a =>
        if ((PD.pdResult agents tasks nextf a).route.filter
          (fun e => e.eid == tid)) ≠ [] then 1 else 0)).sum ≤ 1) ∧
      (∀ tid a, a < agents.length →
        ((PD.pdResult agents tasks nextf a).route.filter
          (fun e => e.eid == tid)) ≠ [] →
        tid ∉ PD.unassignedTasks (PD.buildRegistry agents tasks) nextf) ∧
      (∀ t ∈ tasks, t.isPD = false →
        (PD.unassignedTasks (PD.buildRegistry agents tasks) nextf).count t.id ≤ 1) ∧
      (∀ t ∈ tasks, t.isPD = true →
        (PD.unassignedTasks (PD.buildRegistry agents tasks) nextf).count t.id = 0 ∨
        (PD.unassignedTasks (PD.buildRegistry agents tasks) nextf).count t.id = 2)) ∧
    (∀ (tasks : List Sched.Task) (agents : List Sched.Agent) (nextf : ℕ → ℕ),
      Sched.ValidSolutionS tasks agents nextf → (tasks.map Sched.Task.id).Nodup →
      (∀ tid, ((List.range agents.length).map (fun a =>
        if tid ∈ (Sched.schedResult tasks agents nextf a).route then 1 else 0)).sum
          ≤ 1) ∧
      (∀ tid a, a < agents.length →
        tid ∈ (Sched.schedResult tasks agents nextf a).route →
        tid ∉ Sched.unassignedTasks tasks agents.length
          (Sched.numLoc tasks agents) nextf)) := by
  constructor
  · intro agents tasks nextf hVS hid
    refine ⟨?_, ?_, ?_, ?_⟩
    · intro tid
      refine PD.sum_ite_le_one _ (List.nodup_range _) ?_
      intro a hamem b hbmem hPa hPb
      rw [List.mem_range] at hamem hbmem
      obtain ⟨x, hxE, hxw, hxe⟩ := PD.route_emitter agents tasks nextf hVS hamem hPa
      obtain ⟨y, hyE, hyw, hye⟩ := PD.route_emitter agents tasks nextf hVS hbmem hPb
      obtain ⟨p, t, ht, htid, hcases⟩ := PD.entries_structure agents tasks hid hxE
      have hpin : x.1 = p ∧ y.1 = p := by
        rcases hcases with ⟨hE, _⟩ | ⟨hE, _, _, hdropnone⟩
        · rw [hE] at hxE hyE
          have hxeq := List.mem_singleton.mp hxE
          have hyeq := List.mem_singleton.mp hyE
          exact ⟨by rw [hxeq], by rw [hyeq]⟩
        · rw [hE] at hxE hyE
          have pin : ∀ z : ℕ × PD.Task, z ∈ [(p, t), (p + 1, t)] →
              PD.emitEntry (PD.buildRegistry agents tasks) z.1 ≠ none → z.1 = p := by
            intro z hz hze
            rcases List.mem_cons.mp hz with h1 | h2
            · rw [h1]
            · rcases List.mem_cons.mp h2 with h2 | h3
              · exfalso
                apply hze
                rw [h2]
                exact hdropnone
              · simp at h3
          exact ⟨pin x hxE hxe, pin y hyE hye⟩
      rcases hVS.2.1 a hamem b hbmem with heq | hdisj
      · exact heq
      · exfalso
        refine hdisj x.1 hxw ?_
        rw [hpin.1, ← hpin.2]
        exact hyw
    · intro tid a ha hne hun
      obtain ⟨x, hxE, hxw, hxe⟩ := PD.route_emitter agents tasks nextf hVS ha hne
      rw [PD.unassignedTasks_eq] at hun
      rcases List.mem_map.mp hun with ⟨y, hy, hyid⟩
      rcases List.mem_filter.mp hy with ⟨hyti, hysl⟩
      have hysl2 : nextf y.1 = y.1 := by simpa using hysl
      have hyE : y ∈ PD.entriesOf (PD.buildRegistry agents tasks) tid :=
        (PD.mem_entriesOf _ _ _).mpr ⟨hyti, hyid⟩
      have hyunv := (hVS.2.2.2.1 y hyti).mp hysl2
      obtain ⟨p, t, ht, htid, hcases⟩ := PD.entries_structure agents tasks hid hxE
      rcases hcases with ⟨hE, _⟩ | ⟨hE, _, hppd, hdropnone⟩
      · rw [hE] at hxE hyE
        have hxeq := List.mem_singleton.mp hxE
        have hyeq := List.mem_singleton.mp hyE
        refine hyunv a ha ?_
        rw [hyeq]
        rw [hxeq] at hxw
        exact hxw
      · rw [hE] at hxE hyE
        have hx1 : x.1 = p := by
          rcases List.mem_cons.mp hxE with h1 | h2
          · rw [h1]
          · rcases List.mem_cons.mp h2 with h2 | h3
            · exfalso
              apply hxe
              rw [h2]
              exact hdropnone
            · simp at h3
        have hpdv := (hVS.2.2.2.2.1 (p, p + 1) hppd a ha).1
        rcases List.mem_cons.mp hyE with hy1 | hy2
        · refine hyunv a ha ?_
          rw [hy1]
          rw [hx1] at hxw
          exact hxw
        · rcases List.mem_cons.mp hy2 with hy2 | hy3
          · refine hyunv a ha ?_
            rw [hy2]
            refine hpdv.mp ?_
            rw [hx1] at hxw
            exact hxw
          · simp at hy3
    · intro t ht hsingle
      obtain ⟨p, hp⟩ := (PD.entriesOf_build agents tasks t ht hid).2 hsingle
      exact PD.count_unassigned_single _ nextf t p hp
    · intro t ht hpd
      obtain ⟨p, hppd, hE⟩ := (PD.entriesOf_build agents tasks t ht hid).1 hpd
      have hpti : (p, t) ∈ (PD.buildRegistry agents tasks).task_indices :=
        PD.entriesOf_subset _ _ _ (by
          rw [hE]
          exact List.mem_cons_self _ _)
      have hdti : (p + 1, t) ∈ (PD.buildRegistry agents tasks).task_indices :=
        PD.entriesOf_subset _ _ _ (by
          rw [hE]
          exact List.mem_cons_of_mem _ (List.mem_cons_self _ _))
      have hdropv := hVS.2.2.2.1
      have hpdv := hVS.2.2.2.2.1 (p, p + 1) hppd
      by_cases hsl : nextf p = p
      · have hsl2 : nextf (p + 1) = p + 1 := by
          refine (hdropv (p + 1, t) hdti).mpr ?_
          intro a ha hmem
          exact (hdropv (p, t) hpti).mp hsl a ha ((hpdv a ha).1.mpr hmem)
        exact Or.inr (PD.count_unassigned_two _ nextf t p hE hsl hsl2)
      · have hvis : ∃ a, a < agents.length ∧
            p ∈ PD.walkOf agents tasks nextf a := by
          by_contra hno
          push_neg at hno
          exact hsl ((hdropv (p, t) hpti).mpr hno)
        obtain ⟨a, ha, hmem⟩ := hvis
        have hsl2 : ¬ nextf (p + 1) = p + 1 := by
          intro h
          exact ((hdropv (p + 1, t) hdti).mp h a ha) ((hpdv a ha).1.mp hmem)
        refine Or.inl ?_
        rw [PD.count_unassigned_eq, hE]
        simp [List.countP_cons, hsl, hsl2]
  · intro tasks agents nextf hVS hid
    have hroute : ∀ a, (Sched.schedResult tasks agents nextf a).route =
        ((Sched.walkOfS tasks agents nextf a).filter
          (fun x => decide (agents.length ≤ x))).map
          (fun x => (tasks.getD (x - agents.length) default).id) := by
      intro a
      have hcomp := Sched.loopS_components tasks (Sched.locationsOf tasks agents)
        agents.length (Sched.numLoc tasks agents) nextf
        (Sched.numLoc tasks agents + 1) a ⟨[], 0, 0⟩
      unfold Sched.schedResult Sched.walkOfS
      rw [hcomp.1]
      simp
    have hsrc : ∀ tid a, tid ∈ (Sched.schedResult tasks agents nextf a).route →
        ∃ node, node ∈ Sched.walkOfS tasks agents nextf a ∧
          agents.length ≤ node ∧ node < Sched.numLoc tasks agents ∧
          (tasks.getD (node - agents.length) default).id = tid := by
      intro tid a htid
      rw [hroute a] at htid
      rcases List.mem_map.mp htid with ⟨node, hnode, hid2⟩
      rcases List.mem_filter.mp hnode with ⟨hw, hge⟩
      exact ⟨node, hw, by simpa using hge, mem_walkIdx_lt hw, hid2⟩
    have hnloc : Sched.numLoc tasks agents = agents.length + tasks.length := rfl
    constructor
    · intro tid
      refine PD.sum_ite_le_one _ (List.nodup_range _) ?_
      intro a hamem b hbmem hPa hPb
      rw [List.mem_range] at hamem hbmem
      obtain ⟨na, hwa, hgea, hlta, hida⟩ := hsrc tid a hPa
      obtain ⟨nb, hwb, hgeb, hltb, hidb⟩ := hsrc tid b hPb
      have hia : na - agents.length < tasks.length := by omega
      have hib : nb - agents.length < tasks.length := by omega
      have hij := Sched.id_index_inj tasks hid hia hib (by rw [hida, hidb])
      have hnn : na = nb := by omega
      rcases hVS.2.1 a hamem b hbmem with heq | hdisj
      · exact heq
      · exfalso
        refine hdisj na hwa ?_
        rw [hnn]
        exact hwb
    · intro tid a ha htid hun
      obtain ⟨node, hw, hge, hlt, hids⟩ := hsrc tid a htid
      unfold Sched.unassignedTasks at hun
      rcases List.mem_map.mp hun with ⟨li, hli, hliid⟩
      rcases List.mem_filter.mp hli with ⟨hli1, hli2⟩
      rw [List.mem_range'_1] at hli1
      have hlii : li - agents.length < tasks.length := by omega
      have hni : node - agents.length < tasks.length := by omega
      have heq := Sched.id_index_inj tasks hid hlii hni (by rw [hliid, hids])
      have hlin : li = node := by omega
      have hself : nextf li = li := by simpa using hli2
      have hdropS := hVS.2.2.2.1 li (by
        rw [List.mem_range'_1]
        omega)
      refine (hdropS.mp hself a ha) ?_
      rw [hlin]
      exact hw

theorem C1_amended_witness :
    ((List.range PD.exAgentsB.length).map (fun a =>
      if ((PD.pdResult PD.exAgentsB PD.exTasksB PD.exNextB a).route.filter
        (fun e => e.eid == 1)) ≠ [] then 1 else 0)).sum ≤ 1 ∧
    ((PD.unassignedTasks (PD.buildRegistry PD.exAgentsB PD.exTasksB)
        PD.exNextB).count 1 = 0 ∨
     (PD.unassignedTasks (PD.buildRegistry PD.exAgentsB PD.exTasksB)
        PD.exNextB).count 1 = 2) :=
  ⟨(C1_amended.1 PD.exAgentsB PD.exTasksB PD.exNextB (by decide) (by decide)).1 1,
   (C1_amended.1 PD.exAgentsB PD.exTasksB PD.exNextB (by decide) (by decide)).2.2.2
     (PD.Task.pickup_delivery 1 "B" (2, 2) (3, 1) 50) (List.mem_cons_self _ _) rfl⟩
